import Mathlib

/-!
Verification of the core data structures of this repository:
`interval_map` (src/common/interval_map.h) and `PGTransaction`
(src/osd/PGTransaction.h).

The C++ `std::map<K, std::pair<K, V>>` backing `interval_map` is embedded as a
list of `(start, len, value)` triples kept in ascending key order; iterator
arithmetic of `get_range` is mirrored by index arithmetic (`List.findIdx`,
`List.take`, `List.drop`).  `std::map::insert` (which does not overwrite an
existing key) is mirrored by `mapIns`.  The key type `K` is instantiated at
`Nat`; all subtractions performed by the C++ code are on provably non-negative
differences, so `Nat` subtraction agrees with the machine arithmetic.
-/

namespace Ceph

/-- An entry of the backing map of `interval_map`: `(start, (len, value))`,
exactly the `std::map<K, std::pair<K,V>>` value shape. -/
abbrev Ext (V : Type) := Nat × Nat × V

/-- End offset `start + len` of an entry. -/
def extEnd {V : Type} (e : Ext V) : Nat := e.1 + e.2.1

/-- `m.upper_bound(off)`: index of the first entry whose start is `> off`
(list length when there is none). -/
def ubIdx {V : Type} (l : List (Ext V)) (off : Nat) : Nat :=
  l.findIdx (fun e => decide (off < e.1))

/-- `m.lower_bound(x)`: index of the first entry whose start is `≥ x`. -/
def lbIdx {V : Type} (l : List (Ext V)) (x : Nat) : Nat :=
  l.findIdx (fun e => decide (x ≤ e.1))

/-- The final adjustment of `interval_map::get_range`: step the candidate
iterator forward once when it dereferences to an entry ending at or before
`off` (`if (fst != m.end() && off >= ...) ++fst`). -/
def fstAdjust {V : Type} (l : List (Ext V)) (off i1 : Nat) : Nat :=
  match l[i1]? with
  | some e => if extEnd e ≤ off then i1 + 1 else i1
  | none => i1

/-- The `fst` iterator of `interval_map::get_range`: `upper_bound(off)`,
stepped back once if possible, then adjusted by `fstAdjust`. -/
def fstIdx {V : Type} (l : List (Ext V)) (off : Nat) : Nat :=
  fstAdjust l off (if ubIdx l off = 0 then ubIdx l off else ubIdx l off - 1)

/-- The split remnants `interval_map::erase` records for one overlapped entry:
a left remnant when the entry starts before `off`, and a right remnant when it
ends after `off + len`, with values produced by the splitter `sp`. -/
def remsOf {V : Type} (sp : Nat → Nat → V → V) (off len : Nat) (e : Ext V) :
    List (Ext V) :=
  (if e.1 < off then [(e.1, off - e.1, sp 0 (off - e.1) e.2.2)] else []) ++
  (if off + len < extEnd e then
     [(off + len, extEnd e - (off + len),
       sp (e.2.1 - (extEnd e - (off + len))) (extEnd e - (off + len)) e.2.2)]
   else [])

/-- `std::map::insert`: insert at the sorted position, keeping the existing
entry when the key is already present. -/
def mapIns {V : Type} : List (Ext V) → Ext V → List (Ext V)
  | [], e => [e]
  | f :: t, e =>
    if e.1 < f.1 then e :: f :: t
    else if e.1 = f.1 then f :: t
    else f :: mapIns t e

/-- `interval_map::erase(off, len)`: returns immediately when `len = 0`,
otherwise removes the entries of `[fst, lst)` and re-inserts the recorded
split remnants (`fst = fstIdx`, `lst = lbIdx (off+len)`, and the remnant
vector is built by one pass over `[fst, lst)`). -/
def imErase {V : Type} (sp : Nat → Nat → V → V) (l : List (Ext V))
    (off len : Nat) : List (Ext V) :=
  if len = 0 then l else
  (((l.drop (fstIdx l off)).take (lbIdx l (off + len) - fstIdx l off)).flatMap
      (remsOf sp off len)).foldl mapIns
    (l.take (fstIdx l off) ++ l.drop (lbIdx l (off + len)))

/-- `interval_map::insert(off, len, v)`: erase then `std::map::insert`. -/
def imInsert {V : Type} (sp : Nat → Nat → V → V) (l : List (Ext V))
    (off len : Nat) (v : V) : List (Ext V) :=
  mapIns (imErase sp l off len) (off, len, v)

/-- `interval_map::empty`. -/
def imEmpty {V : Type} (l : List (Ext V)) : Bool := l.isEmpty

/-- `interval_map::ext_count`. -/
def extCount {V : Type} (l : List (Ext V)) : Nat := l.length

/-- The representation invariant of the backing map, as one chain condition:
every entry has positive length and ends no later than its successor starts.
It implies I1 (non-overlap), I2 (non-empty) and I3 (sorted iteration). -/
def chainOK {V : Type} : List (Ext V) → Bool
  | [] => true
  | [e] => decide (0 < e.2.1)
  | e :: f :: t => decide (0 < e.2.1) && decide (extEnd e ≤ f.1) && chainOK (f :: t)

/-- Does entry `e` intersect the half-open range `[off, off+len)`? -/
def overlaps {V : Type} (e : Ext V) (off len : Nat) : Bool :=
  decide (e.1 < off + len) && decide (off < extEnd e)

/-- The spec's description of what `erase` does to a single entry:
non-intersecting entries are untouched; an intersecting entry is replaced by
a prefixed remnant `(e.start, off - e.start, S 0 (off - e.start) e.val)` when
it starts before `off` and a suffixed remnant of length
`suffix_len = extEnd e - (off + len)` starting at `off + len` with value
`S (e.len - suffix_len) suffix_len e.val` when it ends after `off + len`. -/
def eraseFn {V : Type} (sp : Nat → Nat → V → V) (off len : Nat) (e : Ext V) :
    List (Ext V) :=
  if overlaps e off len then
    (if e.1 < off then [(e.1, off - e.1, sp 0 (off - e.1) e.2.2)] else []) ++
    (if off + len < extEnd e then
       [(off + len, extEnd e - (off + len),
         sp (e.2.1 - (extEnd e - (off + len))) (extEnd e - (off + len)) e.2.2)]
     else [])
  else [e]

theorem eraseFn_eq {V : Type} (sp : Nat → Nat → V → V) (off len : Nat)
    (e : Ext V) :
    eraseFn sp off len e =
      if overlaps e off len then remsOf sp off len e else [e] := rfl

/-- Ordering relation between successive entries of a well-formed map. -/
def extLE {V : Type} (a b : Ext V) : Prop := extEnd a ≤ b.1

instance {V : Type} : IsTrans (Ext V) extLE where
  trans a b c hab hbc :=
    Nat.le_trans hab (Nat.le_trans (Nat.le_add_right b.1 b.2.1) hbc)

/-- The representation invariant as a proposition: all lengths positive
(I2) and successive entries non-overlapping (I1/I3). -/
def imInv {V : Type} (l : List (Ext V)) : Prop :=
  (∀ e ∈ l, 0 < e.2.1) ∧ l.Chain' extLE

theorem chainOK_iff_imInv {V : Type} (l : List (Ext V)) :
    chainOK l = true ↔ imInv l := by
  induction l with
  | nil => simp [chainOK, imInv]
  | cons e t ih =>
    cases t with
    | nil => simp [chainOK, imInv, extLE]
    | cons f t' =>
      simp only [chainOK, Bool.and_eq_true, decide_eq_true_eq, ih, imInv,
        List.chain'_cons, List.mem_cons] at *
      constructor
      · rintro ⟨⟨hpe, hef⟩, hpos, hch⟩
        refine ⟨?_, hef, hch⟩
        rintro x (rfl | hx)
        · exact hpe
        · exact hpos x hx
      · rintro ⟨hpos, hef, hch⟩
        exact ⟨⟨hpos e (Or.inl rfl), hef⟩, fun x hx => hpos x (Or.inr hx), hch⟩

theorem imInv_pairwise {V : Type} {l : List (Ext V)} (h : imInv l) :
    l.Pairwise extLE :=
  List.chain'_iff_pairwise.mp h.2

theorem imInv_keys_lt {V : Type} {l : List (Ext V)} (h : imInv l) :
    l.Pairwise (fun a b => a.1 < b.1) := by
  refine (imInv_pairwise h).imp_of_mem ?_
  intro a b ha _ hab
  exact Nat.lt_of_lt_of_le (Nat.lt_add_of_pos_right (h.1 a ha)) hab

/-- `l.take (l.findIdx p)` is the maximal leading run of elements failing `p`. -/
theorem take_findIdx {α : Type} (p : α → Bool) (l : List α) :
    l.take (l.findIdx p) = l.takeWhile (fun e => !p e) := by
  induction l with
  | nil => rfl
  | cons a t ih =>
    by_cases h : p a
    · simp [List.findIdx_cons, h]
    · simp [List.findIdx_cons, h, ih]

theorem drop_findIdx {α : Type} (p : α → Bool) (l : List α) :
    l.drop (l.findIdx p) = l.dropWhile (fun e => !p e) := by
  induction l with
  | nil => rfl
  | cons a t ih =>
    by_cases h : p a
    · simp [List.findIdx_cons, h]
    · simp [List.findIdx_cons, h, ih]

/-- Along a list where `p` can only switch from false to true, `takeWhile !p`
is the same as `filter !p`. -/
theorem takeWhile_eq_filter_of_mono {α : Type} {p : α → Bool} {l : List α}
    (h : l.Pairwise (fun a b => p a = true → p b = true)) :
    l.takeWhile (fun e => !p e) = l.filter (fun e => !p e) := by
  induction l with
  | nil => rfl
  | cons a t ih =>
    rcases List.pairwise_cons.mp h with ⟨ha, ht⟩
    by_cases hpa : p a
    · have hnil : t.filter (fun e => !p e) = [] := by
        refine List.filter_eq_nil_iff.mpr ?_
        intro e he
        simp [ha e he hpa]
      simp [List.takeWhile_cons, hpa, List.filter_cons, hnil]
    · simp [List.takeWhile_cons, hpa, List.filter_cons, ih ht]

theorem dropWhile_eq_filter_of_mono {α : Type} {p : α → Bool} {l : List α}
    (h : l.Pairwise (fun a b => p a = true → p b = true)) :
    l.dropWhile (fun e => !p e) = l.filter p := by
  induction l with
  | nil => rfl
  | cons a t ih =>
    rcases List.pairwise_cons.mp h with ⟨ha, ht⟩
    by_cases hpa : p a
    · simp [List.dropWhile_cons, hpa, List.filter_cons,
        List.filter_eq_self.mpr (fun e he => ha e he hpa)]
    · simp [List.dropWhile_cons, hpa, List.filter_cons, ih ht]

/-- Does entry `e` end strictly after `off`? -/
def endsAfter {V : Type} (off : Nat) (e : Ext V) : Bool := decide (off < extEnd e)

/-- Does entry `e` start strictly after `off`? -/
def startsAfter {V : Type} (off : Nat) (e : Ext V) : Bool := decide (off < e.1)

/-- Does entry `e` start at or after `x`? -/
def startsFrom {V : Type} (x : Nat) (e : Ext V) : Bool := decide (x ≤ e.1)

theorem ubIdx_eq_findIdx {V : Type} (l : List (Ext V)) (off : Nat) :
    ubIdx l off = l.findIdx (startsAfter off) := rfl

theorem lbIdx_eq_findIdx {V : Type} (l : List (Ext V)) (x : Nat) :
    lbIdx l x = l.findIdx (startsFrom x) := rfl

theorem imInv_nil {V : Type} : imInv ([] : List (Ext V)) :=
  ⟨fun _ h => absurd h (List.not_mem_nil _), List.chain'_nil⟩

theorem imInv_tail {V : Type} {e : Ext V} {t : List (Ext V)}
    (h : imInv (e :: t)) : imInv t :=
  ⟨fun x hx => h.1 x (List.mem_cons_of_mem e hx), h.2.tail⟩

theorem imInv_append {V : Type} {X Y : List (Ext V)} (hx : imInv X)
    (hy : imInv Y) (hxy : ∀ x ∈ X, ∀ y ∈ Y, extLE x y) : imInv (X ++ Y) := by
  refine ⟨?_, ?_⟩
  · intro e he
    rcases List.mem_append.mp he with h | h
    · exact hx.1 e h
    · exact hy.1 e h
  · refine List.chain'_append.mpr ⟨hx.2, hy.2, ?_⟩
    intro a ha b hb
    exact hxy a (List.mem_of_mem_getLast? ha) b (List.mem_of_mem_head? hb)

theorem flatMap_eq_self {α : Type} {F : α → List α} {s : List α}
    (h : ∀ x ∈ s, F x = [x]) : s.flatMap F = s := by
  induction s with
  | nil => rfl
  | cons a t ih =>
    rw [List.flatMap_cons, h a (List.mem_cons_self a t),
      ih fun x hx => h x (List.mem_cons_of_mem a hx)]
    rfl

theorem flatMap_congr_mem {α β : Type} {F G : α → List β} {s : List α}
    (h : ∀ x ∈ s, F x = G x) : s.flatMap F = s.flatMap G := by
  simp only [List.flatMap]
  rw [List.map_congr_left h]

/-- Each output block of `eraseFn` is itself well formed and stays inside
the footprint of the entry it came from. -/
theorem eraseFn_blocks {V : Type} (sp : Nat → Nat → V → V) (off len : Nat)
    (e : Ext V) (hpos : 0 < e.2.1) (hlen : 0 < len) :
    imInv (eraseFn sp off len e) ∧
      ∀ x ∈ eraseFn sp off len e, e.1 ≤ x.1 ∧ extEnd x ≤ extEnd e := by
  by_cases hov : overlaps e off len = true
  · have hov' := hov
    simp only [overlaps, Bool.and_eq_true, decide_eq_true_eq, extEnd] at hov'
    obtain ⟨h1, h2⟩ := hov'
    by_cases hpre : e.1 < off <;> by_cases hsuf : off + len < e.1 + e.2.1 <;>
      simp [eraseFn, hov, hpre, hsuf, imInv, extLE, extEnd,
        List.chain'_cons, List.chain'_singleton] <;>
      omega
  · simp only [eraseFn]
    rw [if_neg hov]
    refine ⟨⟨?_, ?_⟩, ?_⟩
    · intro x hx
      rw [List.mem_singleton] at hx
      subst hx; exact hpos
    · exact List.chain'_singleton e
    · intro x hx
      rw [List.mem_singleton] at hx
      subst hx; exact ⟨Nat.le_refl _, Nat.le_refl _⟩

/-- `eraseFn` output never intersects the erased range. -/
theorem eraseFn_disj {V : Type} (sp : Nat → Nat → V → V) (off len : Nat)
    (e : Ext V) : ∀ x ∈ eraseFn sp off len e,
      extEnd x ≤ off ∨ off + len ≤ x.1 := by
  intro x hx
  by_cases hov : overlaps e off len = true
  · by_cases hpre : e.1 < off <;> by_cases hsuf : off + len < extEnd e <;>
      simp [eraseFn, hov, hpre, hsuf] at hx <;>
      rcases hx with rfl | rfl <;> simp [extEnd] <;> omega
  · simp only [eraseFn] at hx
    rw [if_neg hov] at hx
    rw [List.mem_singleton] at hx
    subst hx
    simp only [overlaps, Bool.and_eq_true, decide_eq_true_eq, not_and,
      Nat.not_lt] at hov
    rcases Nat.lt_or_ge x.1 (off + len) with h | h
    · exact Or.inl (hov h)
    · exact Or.inr h

/-- The image of a well-formed map under `eraseFn` is well formed. -/
theorem eraseFn_flatMap_inv {V : Type} (sp : Nat → Nat → V → V) (off len : Nat)
    {l : List (Ext V)} (hinv : imInv l) (hlen : 0 < len) :
    imInv (l.flatMap (eraseFn sp off len)) := by
  induction l with
  | nil => exact imInv_nil
  | cons e t ih =>
    rw [List.flatMap_cons]
    have hpe : 0 < e.2.1 := hinv.1 e (List.mem_cons_self e t)
    have hblk := eraseFn_blocks sp off len e hpe hlen
    refine imInv_append hblk.1 (ih (imInv_tail hinv)) ?_
    intro x hx y hy
    rcases List.mem_flatMap.mp hy with ⟨u, hu, hyu⟩
    have h1 : extEnd x ≤ extEnd e := (hblk.2 x hx).2
    have h2 : extLE e u :=
      (List.pairwise_cons.mp (imInv_pairwise hinv)).1 u hu
    have h3 : u.1 ≤ y.1 :=
      ((eraseFn_blocks sp off len u (hinv.1 u (List.mem_cons_of_mem e hu))
        hlen).2 y hyu).1
    exact Nat.le_trans h1 (Nat.le_trans h2 h3)

/-- Under the representation invariant, the `fst` iterator computed by
`interval_map::get_range` is the first entry that ends strictly after
`off` — the characterisation in §4.1.2 of the spec. -/
theorem fstIdx_chain {V : Type} {l : List (Ext V)} (hinv : imInv l)
    (off : Nat) : fstIdx l off = l.findIdx (endsAfter off) := by
  have hpw : l.Pairwise extLE := imInv_pairwise hinv
  have hget : ∀ (i j : Nat) (hi : i < l.length) (hj : j < l.length), i < j →
      extEnd l[i] ≤ (l[j]).1 := fun i j hi hj hij =>
    List.pairwise_iff_getElem.mp hpw i j hi hj hij
  have h21 : l.findIdx (endsAfter off) ≤ l.findIdx (startsAfter off) := by
    refine List.findIdx_le_findIdx ?_
    intro x _ hsx
    simp only [startsAfter, decide_eq_true_eq] at hsx
    simp only [endsAfter, decide_eq_true_eq]
    exact Nat.lt_of_lt_of_le hsx (Nat.le_add_right _ _)
  have hbelowS : ∀ i, i < l.findIdx (startsAfter off) →
      ∀ (hi : i < l.length), (l[i]).1 ≤ off := by
    intro i hlt hi
    have := List.not_of_lt_findIdx hlt
    simpa [startsAfter] using this
  rw [show fstIdx l off = fstAdjust l off
      (if ubIdx l off = 0 then ubIdx l off else ubIdx l off - 1) from rfl,
    ubIdx_eq_findIdx]
  cases hn1 : l.findIdx (startsAfter off) with
  | zero =>
    have h2 : l.findIdx (endsAfter off) = 0 :=
      Nat.le_antisymm (hn1 ▸ h21) (Nat.zero_le _)
    rw [h2]
    simp only [if_pos rfl]
    cases hl0 : l[0]? with
    | none => simp [fstAdjust, hl0]
    | some e =>
      have hlen : 0 < l.length := by
        by_contra hc
        rw [List.getElem?_eq_none (by omega)] at hl0
        exact Option.noConfusion hl0
      have hPl : endsAfter off l[0] = true := by
        have := @List.findIdx_getElem _ (endsAfter off) l (h2 ▸ hlen)
        simpa [h2] using this
      have he : e = l[0] := by
        rw [List.getElem?_eq_getElem hlen] at hl0
        exact (Option.some.injEq _ _ ▸ hl0).symm
      simp only [endsAfter, decide_eq_true_eq] at hPl
      simp [fstAdjust, hl0, he, Nat.not_le.mpr hPl]
  | succ k =>
    have hk : k < l.length := by
      have := @List.findIdx_le_length _ (startsAfter off) l
      omega
    have hsk : (l[k]).1 ≤ off := hbelowS k (by omega) hk
    rw [show (if k + 1 = 0 then k + 1 else k + 1 - 1) = k by simp]
    by_cases hke : extEnd l[k] ≤ off
    · have hres : fstAdjust l off k = k + 1 := by
        simp [fstAdjust, List.getElem?_eq_getElem hk, hke]
      rw [hres]
      have hnotP : ∀ j (hj : j < l.length), j ≤ k →
          endsAfter off l[j] = false := by
        intro j hj hjk
        rcases Nat.lt_or_ge j k with hjlt | hjge
        · have : extEnd l[j] ≤ (l[k]).1 := hget j k hj hk hjlt
          simp only [endsAfter, decide_eq_false_iff_not, Nat.not_lt]
          omega
        · have : j = k := Nat.le_antisymm hjk hjge
          subst this
          simp only [endsAfter, decide_eq_false_iff_not, Nat.not_lt]
          exact hke
      by_cases hl : k + 1 < l.length
      · have h1 : k + 1 ≤ l.findIdx (endsAfter off) := by
          refine List.le_findIdx_of_not hl ?_
          intro j hj
          exact hnotP j (by omega) (by omega)
        omega
      · have hlen : l.length = k + 1 := by omega
        have : l.findIdx (endsAfter off) = l.length := by
          refine List.findIdx_eq_length_of_false ?_
          intro x hx
          rcases List.mem_iff_getElem.mp hx with ⟨j, hj, rfl⟩
          exact hnotP j hj (by omega)
        omega
    · have hres : fstAdjust l off k = k := by
        simp [fstAdjust, List.getElem?_eq_getElem hk, hke]
      rw [hres]
      symm
      refine (List.findIdx_eq hk).mpr ⟨?_, ?_⟩
      · simp only [endsAfter, decide_eq_true_eq]
        omega
      · intro j hj
        have hjl : j < l.length := by omega
        have : extEnd l[j] ≤ (l[k]).1 := hget j k hjl hk hj
        simp only [endsAfter, decide_eq_false_iff_not, Nat.not_lt]
        omega

/-- `intersects [off, off+len)` written with the two monotone tests. -/
theorem overlaps_eq_tests {V : Type} (e : Ext V) (off len : Nat) :
    overlaps e off len = (!startsFrom (off + len) e && endsAfter off e) := by
  by_cases h : off + len ≤ e.1
  · have h2 : ¬e.1 < off + len := by omega
    simp [overlaps, startsFrom, endsAfter, h, h2]
  · have h2 : e.1 < off + len := by omega
    simp [overlaps, startsFrom, endsAfter, h, h2]

theorem mapIns_mem {V : Type} {m : List (Ext V)} {x e : Ext V} (hx : x ∈ m) :
    x ∈ mapIns m e := by
  induction m with
  | nil => cases hx
  | cons f t ih =>
    by_cases h1 : e.1 < f.1
    · simp only [mapIns, if_pos h1]
      exact List.mem_cons_of_mem e hx
    · by_cases h2 : e.1 = f.1
      · simp only [mapIns, if_neg h1, if_pos h2]
        exact hx
      · simp only [mapIns, if_neg h1, if_neg h2]
        rcases List.mem_cons.mp hx with rfl | hx'
        · exact List.mem_cons_self _ _
        · exact List.mem_cons_of_mem f (ih hx')

/-- Insertion between a block of strictly smaller keys and a block of
strictly larger keys lands exactly in the middle. -/
theorem mapIns_between {V : Type} {A C : List (Ext V)} {e : Ext V}
    (hA : ∀ a ∈ A, a.1 < e.1) (hC : ∀ c ∈ C, e.1 < c.1) :
    mapIns (A ++ C) e = A ++ e :: C := by
  induction A with
  | nil =>
    cases C with
    | nil => rfl
    | cons c t =>
      have := hC c (List.mem_cons_self c t)
      simp only [List.nil_append, mapIns, if_pos this]
  | cons a A' ih =>
    have ha := hA a (List.mem_cons_self a A')
    have h1 : ¬e.1 < a.1 := by omega
    have h2 : ¬e.1 = a.1 := by omega
    simp only [List.cons_append, mapIns, if_neg h1, if_neg h2]
    show a :: mapIns (A' ++ C) e = a :: (A' ++ e :: C)
    rw [ih fun x hx => hA x (List.mem_cons_of_mem a hx)]

/-- Folding `std::map::insert` over a batch whose keys sit strictly between
the untouched left and right blocks reconstitutes the sorted concatenation. -/
theorem foldl_mapIns_sorted {V : Type} :
    ∀ (T A C : List (Ext V)),
      (A ++ T ++ C).Pairwise (fun a b => a.1 < b.1) →
      T.foldl mapIns (A ++ C) = A ++ T ++ C := by
  intro T
  induction T with
  | nil => intro A C _; simp
  | cons t T' ih =>
    intro A C hpw
    have hpw' : ((A ++ [t]) ++ T' ++ C).Pairwise (fun a b => a.1 < b.1) := by
      simpa [List.append_assoc] using hpw
    have hA : ∀ a ∈ A, a.1 < t.1 := by
      intro a ha
      have h1 : (A ++ t :: T').Pairwise (fun a b => a.1 < b.1) :=
        (List.pairwise_append.mp hpw).1
      exact (List.pairwise_append.mp h1).2.2 a ha t (List.mem_cons_self _ _)
    have hC : ∀ c ∈ C, t.1 < c.1 := by
      intro c hc
      exact (List.pairwise_append.mp hpw).2.2 t
        (List.mem_append.mpr (Or.inr (List.mem_cons_self _ _))) c hc
    rw [List.foldl_cons, mapIns_between hA hC,
      show A ++ t :: C = (A ++ [t]) ++ C by simp,
      ih (A ++ [t]) C hpw']
    simp

/-- Main characterisation of `interval_map::erase` on a well-formed map:
it acts entrywise as `eraseFn` (remove what intersects, keep split
remnants, leave the rest untouched, in order). -/
theorem imErase_chain {V : Type} (sp : Nat → Nat → V → V) {l : List (Ext V)}
    (hinv : imInv l) {off len : Nat} (hlen : 0 < len) :
    imErase sp l off len = l.flatMap (eraseFn sp off len) := by
  have hpwE : l.Pairwise
      (fun a b => endsAfter off a = true → endsAfter off b = true) := by
    refine (imInv_pairwise hinv).imp ?_
    intro a b hab
    simp only [extLE, extEnd] at hab
    simp only [endsAfter, decide_eq_true_eq, extEnd]
    omega
  have hpwQ : l.Pairwise (fun a b =>
      startsFrom (off + len) a = true → startsFrom (off + len) b = true) := by
    refine (imInv_pairwise hinv).imp ?_
    intro a b hab
    simp only [extLE, extEnd] at hab
    simp only [startsFrom, decide_eq_true_eq]
    omega
  have hQP : ∀ x : Ext V, startsFrom (off + len) x = true →
      endsAfter off x = true := by
    intro x h
    simp only [startsFrom, decide_eq_true_eq] at h
    simp only [endsAfter, decide_eq_true_eq, extEnd]
    omega
  have htake : l.take (fstIdx l off) = l.filter (fun e => !endsAfter off e) := by
    rw [fstIdx_chain hinv, take_findIdx, takeWhile_eq_filter_of_mono hpwE]
  have hdropP : l.drop (fstIdx l off) = l.filter (endsAfter off) := by
    rw [fstIdx_chain hinv, drop_findIdx, dropWhile_eq_filter_of_mono hpwE]
  have hdropQ : l.drop (lbIdx l (off + len)) =
      l.filter (startsFrom (off + len)) := by
    rw [lbIdx_eq_findIdx, drop_findIdx, dropWhile_eq_filter_of_mono hpwQ]
  have hsplit : l = l.filter (fun e => !endsAfter off e) ++
      l.filter (endsAfter off) := by
    conv_lhs => rw [← List.takeWhile_append_dropWhile
      (fun e => !endsAfter off e) l]
    rw [takeWhile_eq_filter_of_mono hpwE, dropWhile_eq_filter_of_mono hpwE]
  have hflen : fstIdx l off = (l.filter (fun e => !endsAfter off e)).length := by
    have h1 := congrArg List.length htake
    rw [List.length_take] at h1
    have h2 : fstIdx l off ≤ l.length := by
      rw [fstIdx_chain hinv]
      exact List.findIdx_le_length _
    omega
  have hlb : lbIdx l (off + len) =
      (l.filter (fun e => !endsAfter off e)).length +
        (l.filter (endsAfter off)).findIdx (startsFrom (off + len)) := by
    rw [lbIdx_eq_findIdx]
    conv_lhs => rw [hsplit]
    rw [List.findIdx_append]
    have hqnone : (l.filter (fun e => !endsAfter off e)).findIdx
        (startsFrom (off + len)) =
        (l.filter (fun e => !endsAfter off e)).length := by
      refine List.findIdx_eq_length_of_false ?_
      intro x hx
      rcases List.mem_filter.mp hx with ⟨_, hxp⟩
      rcases hq : startsFrom (off + len) x with _ | _
      · rfl
      · exact absurd (hQP x hq) (by simpa using hxp)
    rw [hqnone, if_neg (by omega)]
    omega
  have hmid : (l.drop (fstIdx l off)).take
      (lbIdx l (off + len) - fstIdx l off) =
      l.filter (fun e => overlaps e off len) := by
    rw [hdropP]
    have harith : lbIdx l (off + len) - fstIdx l off =
        (l.filter (endsAfter off)).findIdx (startsFrom (off + len)) := by
      rw [hlb, hflen]; omega
    rw [harith, take_findIdx,
      takeWhile_eq_filter_of_mono (hpwQ.sublist (List.filter_sublist _)),
      List.filter_filter]
    refine List.filter_congr ?_
    intro x _
    rw [overlaps_eq_tests]
  have hCeq : l.filter (fun e => startsFrom (off + len) e && endsAfter off e) =
      l.filter (startsFrom (off + len)) := by
    refine List.filter_congr ?_
    intro x _
    rcases hq : startsFrom (off + len) x with _ | _
    · simp
    · simp [hQP x hq]
  have hsplit2 : l.filter (endsAfter off) =
      l.filter (fun e => overlaps e off len) ++
        l.filter (startsFrom (off + len)) := by
    conv_lhs => rw [← List.takeWhile_append_dropWhile
      (fun e => !startsFrom (off + len) e) (l.filter (endsAfter off))]
    rw [takeWhile_eq_filter_of_mono (hpwQ.sublist (List.filter_sublist _)),
      dropWhile_eq_filter_of_mono (hpwQ.sublist (List.filter_sublist _)),
      List.filter_filter, List.filter_filter, hCeq]
    congr 1
    refine List.filter_congr ?_
    intro x _
    rw [overlaps_eq_tests]
  have hrhs : l.flatMap (eraseFn sp off len) =
      l.filter (fun e => !endsAfter off e) ++
        ((l.filter (fun e => overlaps e off len)).flatMap (remsOf sp off len) ++
          l.filter (startsFrom (off + len))) := by
    conv_lhs => rw [hsplit, hsplit2]
    rw [List.flatMap_append, List.flatMap_append]
    congr 1
    · refine flatMap_eq_self ?_
      intro x hx
      rcases List.mem_filter.mp hx with ⟨_, hxp⟩
      have hov : overlaps x off len = false := by
        rw [overlaps_eq_tests]
        simp only [Bool.not_eq_true'] at hxp
        simp [hxp]
      rw [eraseFn_eq, if_neg (by simp [hov])]
    · congr 1
      · refine flatMap_congr_mem ?_
        intro x hx
        rcases List.mem_filter.mp hx with ⟨_, hxp⟩
        rw [eraseFn_eq, if_pos hxp]
      · refine flatMap_eq_self ?_
        intro x hx
        rcases List.mem_filter.mp hx with ⟨_, hxp⟩
        have hov : overlaps x off len = false := by
          rw [overlaps_eq_tests]
          simp [hxp]
        rw [eraseFn_eq, if_neg (by simp [hov])]
  have hpwkeys : (l.filter (fun e => !endsAfter off e) ++
      (((l.filter (fun e => overlaps e off len)).flatMap (remsOf sp off len)) ++
        l.filter (startsFrom (off + len)))).Pairwise
      (fun a b => a.1 < b.1) := by
    rw [← hrhs]
    exact imInv_keys_lt (eraseFn_flatMap_inv sp off len hinv hlen)
  rw [imErase, if_neg (by omega), htake, hdropQ, hmid, hrhs]
  have := foldl_mapIns_sorted
    ((l.filter (fun e => overlaps e off len)).flatMap (remsOf sp off len))
    (l.filter (fun e => !endsAfter off e))
    (l.filter (startsFrom (off + len)))
    (by simpa [List.append_assoc] using hpwkeys)
  rw [this]
  simp [List.append_assoc]

theorem mapIns_mem_rev {V : Type} {m : List (Ext V)} {x e : Ext V}
    (hx : x ∈ mapIns m e) : x = e ∨ x ∈ m := by
  induction m with
  | nil =>
    rw [show mapIns [] e = [e] from rfl, List.mem_singleton] at hx
    exact Or.inl hx
  | cons f t ih =>
    by_cases h1 : e.1 < f.1
    · simp only [mapIns, if_pos h1] at hx
      rcases List.mem_cons.mp hx with rfl | hx'
      · exact Or.inl rfl
      · exact Or.inr hx'
    · by_cases h2 : e.1 = f.1
      · simp only [mapIns, if_neg h1, if_pos h2] at hx
        exact Or.inr hx
      · simp only [mapIns, if_neg h1, if_neg h2] at hx
        rcases List.mem_cons.mp hx with rfl | hx'
        · exact Or.inr (List.mem_cons_self _ _)
        · rcases ih hx' with h | h
          · exact Or.inl h
          · exact Or.inr (List.mem_cons_of_mem f h)

theorem mapIns_head? {V : Type} (m : List (Ext V)) (e : Ext V) :
    (mapIns m e).head? = some e ∨ (mapIns m e).head? = m.head? := by
  cases m with
  | nil => exact Or.inl rfl
  | cons f t =>
    by_cases h1 : e.1 < f.1
    · simp only [mapIns, if_pos h1]
      exact Or.inl rfl
    · by_cases h2 : e.1 = f.1
      · right
        simp only [mapIns, if_neg h1, if_pos h2]
      · right
        simp only [mapIns, if_neg h1, if_neg h2]
        rfl

/-- When no stored key equals the new key, `std::map::insert` genuinely adds
the entry: the result is a permutation of consing it on. -/
theorem mapIns_notmem_perm {V : Type} {m : List (Ext V)} {e : Ext V}
    (h : ∀ x ∈ m, x.1 ≠ e.1) : (mapIns m e).Perm (e :: m) := by
  induction m with
  | nil => exact List.Perm.refl _
  | cons f t ih =>
    by_cases h1 : e.1 < f.1
    · simp only [mapIns, if_pos h1]
      exact List.Perm.refl _
    · by_cases h2 : e.1 = f.1
      · exact absurd h2.symm (h f (List.mem_cons_self f t))
      · simp only [mapIns, if_neg h1, if_neg h2]
        refine List.Perm.trans (List.Perm.cons f
          (ih fun x hx => h x (List.mem_cons_of_mem f hx))) ?_
        exact List.Perm.swap e f t

/-- `std::map::insert` of an entry whose range is disjoint from every stored
entry preserves the representation invariant. -/
theorem mapIns_inv {V : Type} {m : List (Ext V)} {e : Ext V} (hm : imInv m)
    (he : 0 < e.2.1) (hd : ∀ x ∈ m, extEnd x ≤ e.1 ∨ extEnd e ≤ x.1) :
    imInv (mapIns m e) := by
  induction m with
  | nil =>
    refine ⟨?_, List.chain'_singleton e⟩
    intro x hx
    have hx' : x ∈ [e] := hx
    rw [List.mem_singleton] at hx'
    subst hx'
    exact he
  | cons f t ih =>
    have hpf : 0 < f.2.1 := hm.1 f (List.mem_cons_self f t)
    have hdf := hd f (List.mem_cons_self f t)
    by_cases h1 : e.1 < f.1
    · have hef : extLE e f := by
        rcases hdf with h | h
        · exact absurd h (by simp only [extEnd]; omega)
        · exact h
      simp only [mapIns, if_pos h1]
      refine ⟨?_, List.chain'_cons'.mpr ⟨?_, hm.2⟩⟩
      · intro x hx
        rcases List.mem_cons.mp hx with rfl | hx'
        · exact he
        · exact hm.1 x hx'
      · intro y hy
        cases t with
        | nil =>
          simp only [List.head?_cons, Option.mem_def, Option.some.injEq] at hy
          subst hy; exact hef
        | cons g t' =>
          simp only [List.head?_cons, Option.mem_def, Option.some.injEq] at hy
          subst hy; exact hef
    · by_cases h2 : e.1 = f.1
      · exfalso
        rcases hdf with h | h
        · simp only [extEnd] at h; omega
        · simp only [extEnd] at h; omega
      · simp only [mapIns, if_neg h1, if_neg h2]
        have hfe : f.1 < e.1 := by omega
        have hfeLE : extLE f e := by
          rcases hdf with h | h
          · exact h
          · exact absurd h (by simp only [extEnd]; omega)
        have htinv : imInv t := imInv_tail hm
        have hrec := ih htinv (fun x hx => hd x (List.mem_cons_of_mem f hx))
        refine ⟨?_, List.chain'_cons'.mpr ⟨?_, hrec.2⟩⟩
        · intro x hx
          rcases List.mem_cons.mp hx with rfl | hx'
          · exact hpf
          · rcases mapIns_mem_rev hx' with rfl | hx''
            · exact he
            · exact htinv.1 x hx''
        · intro y hy
          rcases mapIns_head? t e with h | h
          · rw [h] at hy
            simp only [Option.mem_def, Option.some.injEq] at hy
            subst hy; exact hfeLE
          · rw [h] at hy
            exact (List.chain'_cons'.mp hm.2).1 y hy

/-- `erase` leaves only entries disjoint from the erased range. -/
theorem imErase_disj {V : Type} (sp : Nat → Nat → V → V) {l : List (Ext V)}
    (hinv : imInv l) {off len : Nat} (hlen : 0 < len) :
    ∀ x ∈ imErase sp l off len, extEnd x ≤ off ∨ off + len ≤ x.1 := by
  rw [imErase_chain sp hinv hlen]
  intro x hx
  rcases List.mem_flatMap.mp hx with ⟨e, _, hxe⟩
  exact eraseFn_disj sp off len e x hxe

/-- `interval_map::erase` preserves the representation invariant. -/
theorem imErase_inv {V : Type} (sp : Nat → Nat → V → V) {l : List (Ext V)}
    (hinv : imInv l) (off len : Nat) : imInv (imErase sp l off len) := by
  by_cases h : len = 0
  · rw [imErase, if_pos h]
    exact hinv
  · rw [imErase_chain sp hinv (by omega)]
    exact eraseFn_flatMap_inv sp off len hinv (by omega)

theorem imErase_key_ne {V : Type} (sp : Nat → Nat → V → V) {l : List (Ext V)}
    (hinv : imInv l) {off len : Nat} (hlen : 0 < len) :
    ∀ x ∈ imErase sp l off len, x.1 ≠ off := by
  intro x hx
  have hd := imErase_disj sp hinv hlen x hx
  have hp : 0 < x.2.1 := (imErase_inv sp hinv off len).1 x hx
  simp only [extEnd] at hd
  omega

/-- `interval_map::insert` preserves the representation invariant when the
inserted length is positive. -/
theorem imInsert_inv {V : Type} (sp : Nat → Nat → V → V) {l : List (Ext V)}
    (hinv : imInv l) {off len : Nat} (hlen : 0 < len) (v : V) :
    imInv (imInsert sp l off len v) := by
  refine mapIns_inv (imErase_inv sp hinv off len) hlen ?_
  intro x hx
  have := imErase_disj sp hinv hlen x hx
  simpa [extEnd] using this

/-- The byte-slice splitter used by the `interval_map` test fixture:
`bl.substr_of(bu, offset, len)` on a byte sequence. -/
def sliceBytes (off len : Nat) (v : List Nat) : List Nat := (v.drop off).take len

/-- One operation against an `interval_map`. -/
inductive IMop (V : Type) where
  | ins (off len : Nat) (v : V)
  | ers (off len : Nat)

def applyIMop {V : Type} (sp : Nat → Nat → V → V) (l : List (Ext V)) :
    IMop V → List (Ext V)
  | .ins off len v => imInsert sp l off len v
  | .ers off len => imErase sp l off len

def runIMops {V : Type} (sp : Nat → Nat → V → V) (ops : List (IMop V)) :
    List (Ext V) :=
  ops.foldl (applyIMop sp) []

/-- The caller contract: inserted ranges are non-empty (`erase` accepts any
length). -/
def validIMop {V : Type} : IMop V → Bool
  | .ins _ len _ => decide (0 < len)
  | .ers _ _ => true

theorem runIMops_inv {V : Type} (sp : Nat → Nat → V → V) (ops : List (IMop V))
    (hv : ∀ op ∈ ops, validIMop op = true) : imInv (runIMops sp ops) := by
  suffices h : ∀ (start : List (Ext V)), imInv start →
      imInv (ops.foldl (applyIMop sp) start) from h [] imInv_nil
  induction ops with
  | nil => intro start hs; exact hs
  | cons op rest ih =>
    intro start hs
    rw [List.foldl_cons]
    refine ih (fun o ho => hv o (List.mem_cons_of_mem op ho)) _ ?_
    cases op with
    | ins off len v =>
      have hlen : 0 < len := by
        have := hv (.ins off len v) (List.mem_cons_self _ _)
        simpa [validIMop] using this
      exact imInsert_inv sp hs hlen v
    | ers off len => exact imErase_inv sp hs off len

/-- C3: starting from an empty `interval_map`, any sequence of `insert`
(with positive length) and `erase` operations maintains I1 (non-overlap),
I2 (positive entry lengths) and I3 (strictly ascending iteration order). -/
theorem C3_invariants {V : Type} (sp : Nat → Nat → V → V) (ops : List (IMop V))
    (hv : ∀ op ∈ ops, validIMop op = true) :
    (∀ a la va b lb vb, (a, la, va) ∈ runIMops sp ops →
        (b, lb, vb) ∈ runIMops sp ops → a < b → a + la ≤ b) ∧
      (∀ e ∈ runIMops sp ops, 0 < e.2.1) ∧
      (runIMops sp ops).Pairwise (fun a b => a.1 < b.1) := by
  have hinv := runIMops_inv sp ops hv
  refine ⟨?_, hinv.1, imInv_keys_lt hinv⟩
  intro a la va b lb vb ha hb hab
  have hsym : (runIMops sp ops).Pairwise
      (fun x y : Ext V => extLE x y ∨ extLE y x) :=
    (imInv_pairwise hinv).imp fun h => Or.inl h
  have hne : (a, la, va) ≠ (b, lb, vb) := by
    intro h
    rw [Prod.ext_iff] at h
    omega
  have := hsym.forall (fun x y h => h.symm) ha hb hne
  rcases this with h | h
  · simpa [extLE, extEnd] using h
  · exfalso
    simp only [extLE, extEnd] at h
    omega

theorem C3_invariants_witness :
    (∀ op ∈ [IMop.ins 0 5 [1,2,3,4,5], IMop.ins 5 5 [6,7,8,9,10],
        IMop.ins 10 5 [11,12,13,14,15], IMop.ers 3 5], validIMop op = true) ∧
      ((∀ a la va b lb vb,
          (a, la, va) ∈ runIMops sliceBytes [IMop.ins 0 5 [1,2,3,4,5],
            IMop.ins 5 5 [6,7,8,9,10], IMop.ins 10 5 [11,12,13,14,15],
            IMop.ers 3 5] →
          (b, lb, vb) ∈ runIMops sliceBytes [IMop.ins 0 5 [1,2,3,4,5],
            IMop.ins 5 5 [6,7,8,9,10], IMop.ins 10 5 [11,12,13,14,15],
            IMop.ers 3 5] → a < b → a + la ≤ b) ∧
        (∀ e ∈ runIMops sliceBytes [IMop.ins 0 5 [1,2,3,4,5],
            IMop.ins 5 5 [6,7,8,9,10], IMop.ins 10 5 [11,12,13,14,15],
            IMop.ers 3 5], 0 < e.2.1) ∧
        (runIMops sliceBytes [IMop.ins 0 5 [1,2,3,4,5],
            IMop.ins 5 5 [6,7,8,9,10], IMop.ins 10 5 [11,12,13,14,15],
            IMop.ers 3 5]).Pairwise (fun a b => a.1 < b.1)) :=
  ⟨by intro op hop; fin_cases hop <;> rfl,
    C3_invariants sliceBytes _ (by intro op hop; fin_cases hop <;> rfl)⟩

/-- C5: on a map satisfying I1–I3, `erase(off, len)` with `len > 0` removes
exactly the entries intersecting `[off, off+len)`, leaving the
splitter-computed remnants described in §4.1.2 and keeping everything else
untouched (stated as the entrywise `eraseFn` characterisation). -/
theorem C5_erase_splits {V : Type} (sp : Nat → Nat → V → V) (l : List (Ext V))
    (off len : Nat) (hinv : chainOK l = true) (hlen : 0 < len) :
    imErase sp l off len = l.flatMap (eraseFn sp off len) :=
  imErase_chain sp ((chainOK_iff_imInv l).mp hinv) hlen

theorem C5_erase_splits_witness :
    (chainOK [(0, 5, [1,2,3,4,5]), (5, 5, [6,7,8,9,10]),
        (10, 5, [11,12,13,14,15])] = true ∧ 0 < 5) ∧
      imErase sliceBytes [(0, 5, [1,2,3,4,5]), (5, 5, [6,7,8,9,10]),
          (10, 5, [11,12,13,14,15])] 3 5 =
        [(0, 5, [1,2,3,4,5]), (5, 5, [6,7,8,9,10]),
          (10, 5, [11,12,13,14,15])].flatMap (eraseFn sliceBytes 3 5) :=
  ⟨⟨by decide, by decide⟩,
    C5_erase_splits sliceBytes _ 3 5 (by decide) (by decide)⟩

/-- C4: on a map satisfying I1–I3, `insert(off, len, v)` with `len > 0` is
erase-then-add; afterwards the single entry intersecting `[off, off+len)` is
`(off, len, v)` itself, previously intersecting entries survive only as
their splitter remnants, and non-intersecting entries are untouched. -/
theorem C4_insert_lww {V : Type} (sp : Nat → Nat → V → V) (l : List (Ext V))
    (off len : Nat) (v : V) (hinv : chainOK l = true) (hlen : 0 < len) :
    (imInsert sp l off len v =
        mapIns (imErase sp l off len) (off, len, v) ∧
      (off, len, v) ∈ imInsert sp l off len v) ∧
    (imInsert sp l off len v).filter (fun e => overlaps e off len) =
      [(off, len, v)] ∧
    (∀ e ∈ l, overlaps e off len = false → e ∈ imInsert sp l off len v) ∧
    (∀ x ∈ imInsert sp l off len v, x = (off, len, v) ∨
      ∃ e ∈ l, (overlaps e off len = false ∧ x = e) ∨
        (overlaps e off len = true ∧ x ∈ remsOf sp off len e)) := by
  have hI : imInv l := (chainOK_iff_imInv l).mp hinv
  have hperm : (mapIns (imErase sp l off len) (off, len, v)).Perm
      ((off, len, v) :: imErase sp l off len) :=
    mapIns_notmem_perm (fun x hx => imErase_key_ne sp hI hlen x hx)
  refine ⟨⟨rfl, ?_⟩, ?_, ?_, ?_⟩
  · exact (hperm.mem_iff).mpr (List.mem_cons_self _ _)
  · have hnew : overlaps ((off, len, v) : Ext V) off len = true := by
      simp only [overlaps, extEnd, Bool.and_eq_true, decide_eq_true_eq]
      omega
    have hrest : (imErase sp l off len).filter
        (fun e => overlaps e off len) = [] := by
      refine List.filter_eq_nil_iff.mpr ?_
      intro x hx
      have hd := imErase_disj sp hI hlen x hx
      simp only [overlaps, extEnd, Bool.and_eq_true, decide_eq_true_eq, not_and,
        Nat.not_lt]
      simp only [extEnd] at hd
      intro h1
      omega
    have hthis := (hperm.filter (fun e => overlaps e off len))
    have hcons : List.filter (fun e => overlaps e off len)
        ((off, len, v) :: imErase sp l off len) = [(off, len, v)] := by
      rw [List.filter_cons, if_pos hnew, hrest]
    rw [hcons] at hthis
    exact List.perm_singleton.mp hthis
  · intro e he hov
    refine mapIns_mem ?_
    rw [imErase_chain sp hI hlen]
    refine List.mem_flatMap.mpr ⟨e, he, ?_⟩
    rw [eraseFn_eq, if_neg (by simp [hov])]
    exact List.mem_singleton.mpr rfl
  · intro x hx
    rcases mapIns_mem_rev hx with rfl | hx'
    · exact Or.inl rfl
    · right
      rw [imErase_chain sp hI hlen] at hx'
      rcases List.mem_flatMap.mp hx' with ⟨e, he, hxe⟩
      refine ⟨e, he, ?_⟩
      by_cases hov : overlaps e off len = true
      · right
        rw [eraseFn_eq, if_pos hov] at hxe
        exact ⟨hov, hxe⟩
      · left
        rw [eraseFn_eq, if_neg hov, List.mem_singleton] at hxe
        exact ⟨by simpa using hov, hxe⟩

theorem C4_insert_lww_witness :
    (chainOK [(0, 5, [1,2,3,4,5]), (10, 5, [11,12,13,14,15])] = true ∧
        0 < 7) ∧
      (imInsert sliceBytes [(0, 5, [1,2,3,4,5]), (10, 5, [11,12,13,14,15])]
          4 7 [21,22,23,24,25,26,27]).filter (fun e => overlaps e 4 7) =
        [(4, 7, [21,22,23,24,25,26,27])] :=
  ⟨⟨by decide, by decide⟩,
    (C4_insert_lww sliceBytes [(0, 5, [1,2,3,4,5]), (10, 5, [11,12,13,14,15])]
      4 7 [21,22,23,24,25,26,27] (by decide) (by decide)).2.1⟩

/-- C10: `insert(off, 0, v)` is not a no-op — the `len == 0` guard makes the
internal erase return immediately and the zero-length entry is stored
whenever no existing entry starts at `off`, violating I2 — while
`erase(off, 0)` always leaves the map unchanged. -/
theorem C10_zero_insert {V : Type} (sp : Nat → Nat → V → V) (v : V) :
    (∀ (l : List (Ext V)) (off : Nat), imErase sp l off 0 = l) ∧
      (∀ (l : List (Ext V)) (off : Nat), (∀ x ∈ l, x.1 ≠ off) →
        (off, 0, v) ∈ imInsert sp l off 0 v) ∧
      imEmpty (imInsert sp [] 5 0 v) = false ∧
      extCount (imInsert sp [] 5 0 v) = 1 ∧
      ¬(∀ e ∈ imInsert sp [] 5 0 v, 0 < e.2.1) := by
  have herase : ∀ (l : List (Ext V)) (off : Nat), imErase sp l off 0 = l := by
    intro l off
    rw [imErase, if_pos rfl]
  refine ⟨herase, ?_, ?_, ?_, ?_⟩
  · intro l off hne
    show (off, 0, v) ∈ mapIns (imErase sp l off 0) (off, 0, v)
    rw [herase]
    exact (mapIns_notmem_perm hne).mem_iff.mpr (List.mem_cons_self _ _)
  · rfl
  · rfl
  · intro h
    have := h (5, 0, v) (by
      show (5, 0, v) ∈ mapIns (imErase sp [] 5 0) (5, 0, v)
      rw [herase]
      exact List.mem_singleton.mpr rfl)
    exact Nat.lt_irrefl 0 this

theorem C10_zero_insert_witness :
    (∀ x ∈ [((0, 3, [1, 2, 3]) : Ext (List Nat))], x.1 ≠ 5) ∧
      ((5, 0, [9]) ∈ imInsert sliceBytes [(0, 3, [1, 2, 3])] 5 0 [9]) :=
  ⟨by decide,
    (C10_zero_insert sliceBytes [9]).2.1 [(0, 3, [1, 2, 3])] 5 (by decide)⟩

/-!
PGTransaction (src/osd/PGTransaction.h).  `hobject_t` is embedded as an
opaque identifier plus its `is_temp` flag; `bufferlist` as a byte list;
`std::map<hobject_t, ObjectOperation>` as an association list in ascending
key order.  Every assertion in the C++ is modelled by returning `none`
(an assertion failure aborts the process; no operation returns an error
value).
-/

/-- `hobject_t`: ordered opaque id with an `is_temp` predicate. -/
structure Hoid where
  oid : Nat
  temp : Bool
deriving DecidableEq, Repr

/-- The `BitwiseComparator` strict order on object ids (any strict total
order works; the claims never depend on which one). -/
def hoidLT (a b : Hoid) : Bool :=
  decide (a.oid < b.oid) || (decide (a.oid = b.oid) && (!a.temp && b.temp))

theorem hoidLT_trans {a b c : Hoid} (h1 : hoidLT a b = true)
    (h2 : hoidLT b c = true) : hoidLT a c = true := by
  simp only [hoidLT, Bool.or_eq_true, Bool.and_eq_true, decide_eq_true_eq,
    Bool.not_eq_true'] at *
  rcases h1 with h1 | ⟨h1, h1a, h1b⟩ <;> rcases h2 with h2 | ⟨h2, h2a, h2b⟩
  · exact Or.inl (by omega)
  · exact Or.inl (by omega)
  · exact Or.inl (by omega)
  · exact Or.inr ⟨by omega, h1a, h2b⟩

theorem hoidLT_ne {a b : Hoid} (h : hoidLT a b = true) : a ≠ b := by
  intro hab
  subst hab
  simp [hoidLT] at h

/-- `Init`: the per-object initialisation state. -/
inductive InitType where
  | None
  | Create
  | Clone (source : Hoid)
  | Rename (source : Hoid)
deriving DecidableEq, Repr

def isNoneInit : InitType → Bool
  | .None => true
  | _ => false

/-- `BufferUpdate`: a pending buffer mutation. -/
inductive BufferUpdateT where
  | Write (buffer : List Nat) (fadvise_flags : Nat)
  | Zero
  | CloneRange (source : Hoid) (offset : Nat) (len : Nat)
deriving DecidableEq, Repr

/-- The `Splitter` of `ObjectOperation::buffer_updates`: slice a `Write`
buffer, keep `Zero`, shift the offset and replace the length of a
`CloneRange`. -/
def buSplitter (offset len : Nat) (bu : BufferUpdateT) : BufferUpdateT :=
  match bu with
  | .Write b f => .Write ((b.drop offset).take len) f
  | .Zero => .Zero
  | .CloneRange s o _ => .CloneRange s (o + offset) len

inductive OmapUpdateType where
  | Remove
  | Insert
deriving DecidableEq, Repr

structure AllocHint where
  expected_object_size : Nat
  expected_write_size : Nat
  flags : Nat
deriving DecidableEq, Repr

/-- `PGTransaction::ObjectOperation` with all its semantic fields. -/
structure ObjectOperation where
  init_type : InitType := .None
  delete_first : Bool := false
  clear_omap : Bool := false
  truncate : Option Nat := none
  attr_updates : List (String × Option (List Nat)) := []
  omap_updates : List (OmapUpdateType × List Nat) := []
  omap_header : Option (List Nat) := none
  updated_snaps : Option (List Nat) := none
  alloc_hint : Option AllocHint := none
  buffer_updates : List (Ext BufferUpdateT) := []
deriving DecidableEq, Repr

def ObjectOperation.is_delete (op : ObjectOperation) : Bool :=
  isNoneInit op.init_type && op.delete_first

def ObjectOperation.is_none (op : ObjectOperation) : Bool :=
  isNoneInit op.init_type && !op.delete_first

def ObjectOperation.is_fresh_object (op : ObjectOperation) : Bool :=
  !isNoneInit op.init_type

def ObjectOperation.has_source : ObjectOperation → Option Hoid :=
  fun op => match op.init_type with
  | .Clone s => some s
  | .Rename s => some s
  | _ => none

/-- The op map: association list in ascending `hoidLT` key order. -/
abbrev OpMap := List (Hoid × ObjectOperation)

def omLookup : OpMap → Hoid → Option ObjectOperation
  | [], _ => none
  | (k, v) :: t, h => if h = k then some v else omLookup t h

def omContains (m : OpMap) (h : Hoid) : Bool := (omLookup m h).isSome

/-- `op_map[hoid]` read: the stored op, or a default-constructed one. -/
def omGet (m : OpMap) (h : Hoid) : ObjectOperation :=
  (omLookup m h).getD {}

/-- `std::map::operator[]= `: insert at the sorted position or overwrite. -/
def omSet : OpMap → Hoid → ObjectOperation → OpMap
  | [], h, v => [(h, v)]
  | (k, w) :: t, h, v =>
    if hoidLT h k then (h, v) :: (k, w) :: t
    else if h = k then (h, v) :: t
    else (k, w) :: omSet t h v

def omErase : OpMap → Hoid → OpMap
  | [], _ => []
  | (k, w) :: t, h => if h = k then t else (k, w) :: omErase t h

/-- Strictly ascending key order (the well-formedness of a `std::map`). -/
def keysSorted : OpMap → Bool
  | [] => true
  | [_] => true
  | a :: b :: t => hoidLT a.1 b.1 && keysSorted (b :: t)

structure PGTransaction where
  op_map : OpMap := []
deriving DecidableEq, Repr

/-- `get_object_op_for_modify`: fetch (or default-construct) the op and
assert `¬is_delete`. -/
def getObjectOpForModify (t : PGTransaction) (hoid : Hoid) :
    Option ObjectOperation :=
  let op := omGet t.op_map hoid
  if op.is_delete then none else some op

/-- `PGTransaction::create`. -/
def PGTransaction.create (t : PGTransaction) (hoid : Hoid) :
    Option PGTransaction :=
  let op := omGet t.op_map hoid
  if !(op.is_none || op.is_delete) then none
  else some ⟨omSet t.op_map hoid { op with init_type := .Create }⟩

/-- `PGTransaction::clone`. -/
def PGTransaction.clone (t : PGTransaction) (target source : Hoid) :
    Option PGTransaction :=
  let op := omGet t.op_map target
  if !(op.is_none || op.is_delete) then none
  else some ⟨omSet t.op_map target { op with init_type := .Clone source }⟩

/-- `PGTransaction::rename`: assert `source.is_temp()`, `!target.is_temp()`,
target is `is_none ∨ is_delete`; move the op at `source` (if any) onto
`target`, erase `source`, set `init = Rename{source}`. -/
def PGTransaction.rename (t : PGTransaction) (target source : Hoid) :
    Option PGTransaction :=
  if !source.temp then none
  else if target.temp then none
  else
    let op := omGet t.op_map target
    if !(op.is_none || op.is_delete) then none
    else
      let m0 := omSet t.op_map target op
      match omLookup m0 source with
      | some sop =>
        some ⟨omSet (omErase m0 source) target
          { sop with init_type := .Rename source }⟩
      | none =>
        some ⟨omSet m0 target { op with init_type := .Rename source }⟩

/-- `PGTransaction::remove`: reset the op to default with
`delete_first = true`; asserts no pending `updated_snaps`. -/
def PGTransaction.remove (t : PGTransaction) (hoid : Hoid) :
    Option PGTransaction :=
  match getObjectOpForModify t hoid with
  | none => none
  | some op =>
    if op.updated_snaps.isSome then none
    else some ⟨omSet t.op_map hoid { delete_first := true }⟩

/-- `PGTransaction::update_snaps`. -/
def PGTransaction.update_snaps (t : PGTransaction) (hoid : Hoid)
    (snaps : List Nat) : Option PGTransaction :=
  match getObjectOpForModify t hoid with
  | none => none
  | some op =>
    if op.updated_snaps.isSome then none
    else some ⟨omSet t.op_map hoid { op with updated_snaps := some snaps }⟩

/-- `PGTransaction::omap_clear`. -/
def PGTransaction.omap_clear (t : PGTransaction) (hoid : Hoid) :
    Option PGTransaction :=
  match getObjectOpForModify t hoid with
  | none => none
  | some op =>
    some ⟨omSet t.op_map hoid
      { op with clear_omap := true, omap_updates := [], omap_header := none }⟩

/-- `std::numeric_limits<uint64_t>::max()`. -/
def u64Max : Nat := 18446744073709551615

/-- `PGTransaction::truncate`: early-return when an existing truncate value
is `≥ off`; otherwise erase `buffer_updates` over `[off, u64Max - off)` and,
unless the object is fresh, record `truncate = off`. -/
def PGTransaction.truncate (t : PGTransaction) (hoid : Hoid) (off : Nat) :
    Option PGTransaction :=
  match getObjectOpForModify t hoid with
  | none => none
  | some op =>
    if (match op.truncate with
        | some tr => decide (off ≤ tr)
        | none => false) then
      some ⟨omSet t.op_map hoid op⟩
    else
      let op1 := { op with
        buffer_updates := imErase buSplitter op.buffer_updates off (u64Max - off) }
      let op2 := if !op1.is_fresh_object then { op1 with truncate := some off }
                 else op1
      some ⟨omSet t.op_map hoid op2⟩

/-- `PGTransaction::setattrs`. -/
def attrSet (l : List (String × Option (List Nat))) (k : String)
    (v : Option (List Nat)) : List (String × Option (List Nat)) :=
  match l with
  | [] => [(k, v)]
  | (k', v') :: t => if k = k' then (k, v) :: t else (k', v') :: attrSet t k v

def PGTransaction.setattrs (t : PGTransaction) (hoid : Hoid)
    (attrs : List (String × List Nat)) : Option PGTransaction :=
  match getObjectOpForModify t hoid with
  | none => none
  | some op =>
    some ⟨omSet t.op_map hoid { op with
      attr_updates := attrs.foldl (fun acc kv => attrSet acc kv.1 (some kv.2))
        op.attr_updates }⟩

def PGTransaction.setattr (t : PGTransaction) (hoid : Hoid) (attrname : String)
    (bl : List Nat) : Option PGTransaction :=
  match getObjectOpForModify t hoid with
  | none => none
  | some op =>
    some ⟨omSet t.op_map hoid { op with
      attr_updates := attrSet op.attr_updates attrname (some bl) }⟩

def PGTransaction.rmattr (t : PGTransaction) (hoid : Hoid)
    (attrname : String) : Option PGTransaction :=
  match getObjectOpForModify t hoid with
  | none => none
  | some op =>
    some ⟨omSet t.op_map hoid { op with
      attr_updates := attrSet op.attr_updates attrname none }⟩

def PGTransaction.set_alloc_hint (t : PGTransaction) (hoid : Hoid)
    (expected_object_size expected_write_size flags : Nat) :
    Option PGTransaction :=
  match getObjectOpForModify t hoid with
  | none => none
  | some op =>
    some ⟨omSet t.op_map hoid { op with
      alloc_hint := some ⟨expected_object_size, expected_write_size, flags⟩ }⟩

/-- `PGTransaction::write`. -/
def PGTransaction.write (t : PGTransaction) (hoid : Hoid) (off len : Nat)
    (bl : List Nat) (fadvise_flags : Nat) : Option PGTransaction :=
  match getObjectOpForModify t hoid with
  | none => none
  | some op =>
    some ⟨omSet t.op_map hoid { op with
      buffer_updates := imInsert buSplitter op.buffer_updates off len
        (.Write bl fadvise_flags) }⟩

/-- `PGTransaction::clone_range` (modifies the `to` op). -/
def PGTransaction.clone_range (t : PGTransaction) (source dest : Hoid)
    (fromoff len tooff : Nat) : Option PGTransaction :=
  match getObjectOpForModify t dest with
  | none => none
  | some op =>
    some ⟨omSet t.op_map dest { op with
      buffer_updates := imInsert buSplitter op.buffer_updates tooff len
        (.CloneRange source fromoff len) }⟩

/-- `PGTransaction::zero`. -/
def PGTransaction.zero (t : PGTransaction) (hoid : Hoid) (off len : Nat) :
    Option PGTransaction :=
  match getObjectOpForModify t hoid with
  | none => none
  | some op =>
    some ⟨omSet t.op_map hoid { op with
      buffer_updates := imInsert buSplitter op.buffer_updates off len .Zero }⟩

/-- `PGTransaction::omap_setkeys` (encoded-bufferlist form). -/
def PGTransaction.omap_setkeys (t : PGTransaction) (hoid : Hoid)
    (keys_bl : List Nat) : Option PGTransaction :=
  match getObjectOpForModify t hoid with
  | none => none
  | some op =>
    some ⟨omSet t.op_map hoid { op with
      omap_updates := op.omap_updates ++ [(OmapUpdateType.Insert, keys_bl)] }⟩

/-- `PGTransaction::omap_rmkeys` (encoded-bufferlist form). -/
def PGTransaction.omap_rmkeys (t : PGTransaction) (hoid : Hoid)
    (keys_bl : List Nat) : Option PGTransaction :=
  match getObjectOpForModify t hoid with
  | none => none
  | some op =>
    some ⟨omSet t.op_map hoid { op with
      omap_updates := op.omap_updates ++ [(OmapUpdateType.Remove, keys_bl)] }⟩

def PGTransaction.omap_setheader (t : PGTransaction) (hoid : Hoid)
    (header : List Nat) : Option PGTransaction :=
  match getObjectOpForModify t hoid with
  | none => none
  | some op =>
    some ⟨omSet t.op_map hoid { op with omap_header := some header }⟩

/-- `PGTransaction::nop`: just materialise the entry (and assert). -/
def PGTransaction.nop (t : PGTransaction) (hoid : Hoid) :
    Option PGTransaction :=
  match getObjectOpForModify t hoid with
  | none => none
  | some op => some ⟨omSet t.op_map hoid op⟩

theorem hoidLT_total {a b : Hoid} (h1 : hoidLT a b = false) (h2 : a ≠ b) :
    hoidLT b a = true := by
  obtain ⟨ao, atp⟩ := a
  obtain ⟨bo, btp⟩ := b
  simp only [hoidLT, Bool.or_eq_false_iff, Bool.and_eq_false_iff,
    decide_eq_false_iff_not, Nat.not_lt, Bool.or_eq_true, Bool.and_eq_true,
    decide_eq_true_eq, Bool.not_eq_true', Bool.not_eq_false] at *
  obtain ⟨hle, hcase⟩ := h1
  rcases Nat.lt_or_ge bo ao with hlt | hge
  · exact Or.inl hlt
  · have heq : ao = bo := by omega
    subst heq
    right
    refine ⟨rfl, ?_, ?_⟩
    · cases htb : btp <;> cases hta : atp
      · exfalso
        exact h2 (by rw [htb, hta])
      · rfl
      · rcases hcase with h | h | h
        · omega
        · rw [hta] at h; cases h
        · rw [htb] at h; cases h
      · exfalso
        exact h2 (by rw [htb, hta])
    · cases htb : btp <;> cases hta : atp
      · exfalso
        exact h2 (by rw [htb, hta])
      · rfl
      · rcases hcase with h | h | h
        · omega
        · rw [hta] at h; cases h
        · rw [htb] at h; cases h
      · exfalso
        exact h2 (by rw [htb, hta])

theorem hoidLT_irrefl (a : Hoid) : hoidLT a a = false := by
  simp [hoidLT]

theorem omLookup_omSet_self (m : OpMap) (k : Hoid) (v : ObjectOperation) :
    omLookup (omSet m k v) k = some v := by
  induction m with
  | nil => simp [omSet, omLookup]
  | cons p t ih =>
    obtain ⟨k', w⟩ := p
    by_cases h1 : hoidLT k k' = true
    · simp [omSet, h1, omLookup]
    · by_cases h2 : k = k'
      · simp [omSet, h1, h2, omLookup, hoidLT_irrefl]
      · simp [omSet, h1, h2, omLookup, ih]

theorem omLookup_omSet_ne (m : OpMap) {h k : Hoid} (hne : h ≠ k)
    (v : ObjectOperation) : omLookup (omSet m k v) h = omLookup m h := by
  induction m with
  | nil => simp [omSet, omLookup, hne]
  | cons p t ih =>
    obtain ⟨k', w⟩ := p
    by_cases h1 : hoidLT k k' = true
    · simp [omSet, h1, omLookup, hne]
    · by_cases h2 : k = k'
      · subst h2
        simp [omSet, h1, omLookup, hne]
      · by_cases h3 : h = k'
        · simp [omSet, h1, h2, omLookup, h3]
        · simp [omSet, h1, h2, omLookup, h3, ih]

theorem omLookup_omErase_ne (m : OpMap) {h k : Hoid} (hne : h ≠ k) :
    omLookup (omErase m k) h = omLookup m h := by
  induction m with
  | nil => rfl
  | cons p t ih =>
    obtain ⟨k', w⟩ := p
    by_cases h1 : k = k'
    · subst h1
      simp [omErase, omLookup, hne]
    · by_cases h2 : h = k'
      · simp [omErase, h1, omLookup, h2]
      · simp [omErase, h1, omLookup, h2, ih]

/-- Key order along an op map, as the `Chain'` form. -/
theorem keysSorted_iff_chain' (m : OpMap) :
    keysSorted m = true ↔ m.Chain' (fun a b => hoidLT a.1 b.1 = true) := by
  induction m with
  | nil => simp [keysSorted]
  | cons a t ih =>
    cases t with
    | nil => simp [keysSorted]
    | cons b t' =>
      simp only [keysSorted, Bool.and_eq_true, List.chain'_cons] at *
      rw [ih]

theorem keysSorted_pairwise {m : OpMap} (h : keysSorted m = true) :
    m.Pairwise (fun a b => hoidLT a.1 b.1 = true) := by
  have : IsTrans (Hoid × ObjectOperation)
      (fun a b => hoidLT a.1 b.1 = true) :=
    ⟨fun _ _ _ hab hbc => hoidLT_trans hab hbc⟩
  exact List.chain'_iff_pairwise.mp ((keysSorted_iff_chain' m).mp h)

theorem keysSorted_tail {p : Hoid × ObjectOperation} {t : OpMap}
    (h : keysSorted (p :: t) = true) : keysSorted t = true := by
  rw [keysSorted_iff_chain'] at *
  exact h.tail

theorem omLookup_eq_none_of_forall {m : OpMap} {h : Hoid}
    (hn : ∀ p ∈ m, p.1 ≠ h) : omLookup m h = none := by
  induction m with
  | nil => rfl
  | cons p t ih =>
    obtain ⟨k, w⟩ := p
    have hne : h ≠ k := fun he => (hn (k, w) (List.mem_cons_self _ _)) he.symm
    simp only [omLookup, if_neg hne]
    exact ih fun q hq => hn q (List.mem_cons_of_mem _ hq)

theorem omLookup_omErase_self {m : OpMap} (hs : keysSorted m = true)
    (k : Hoid) : omLookup (omErase m k) k = none := by
  induction m with
  | nil => rfl
  | cons p t ih =>
    obtain ⟨k', w⟩ := p
    by_cases h1 : k = k'
    · subst h1
      simp only [omErase, if_pos rfl]
      refine omLookup_eq_none_of_forall ?_
      intro q hq
      have := (List.pairwise_cons.mp (keysSorted_pairwise hs)).1 q hq
      exact fun he => hoidLT_ne this (by rw [he])
    · simp only [omErase, if_neg h1, omLookup, if_neg h1]
      exact ih (keysSorted_tail hs)

theorem keysSorted_omSet {m : OpMap} (hs : keysSorted m = true) (k : Hoid)
    (v : ObjectOperation) : keysSorted (omSet m k v) = true := by
  rw [keysSorted_iff_chain'] at *
  induction m with
  | nil => exact List.chain'_singleton _
  | cons p t ih =>
    obtain ⟨k', w⟩ := p
    by_cases h1 : hoidLT k k' = true
    · simp only [omSet, if_pos h1]
      exact List.chain'_cons.mpr ⟨h1, hs⟩
    · by_cases h2 : k = k'
      · subst h2
        simp only [omSet, if_neg h1, if_pos rfl]
        refine List.chain'_cons'.mpr ⟨?_, hs.tail⟩
        intro y hy
        exact (List.chain'_cons'.mp hs).1 y hy
      · simp only [omSet, if_neg h1, if_neg h2]
        have hk' : hoidLT k' k = true :=
          hoidLT_total (Bool.eq_false_iff.mpr h1) h2
        refine List.chain'_cons'.mpr ⟨?_, ih hs.tail⟩
        intro y hy
        rcases homset : omSet t k v with _ | ⟨q, r⟩
        · rw [homset] at hy
          cases hy
        · rw [homset] at hy
          simp only [List.head?_cons, Option.mem_def, Option.some.injEq] at hy
          subst hy
          cases t with
          | nil =>
            have : omSet ([] : OpMap) k v = [(k, v)] := rfl
            rw [this] at homset
            cases homset
            exact hk'
          | cons p' t' =>
            obtain ⟨k'', w''⟩ := p'
            by_cases h3 : hoidLT k k'' = true
            · simp only [omSet, if_pos h3] at homset
              cases homset
              exact hk'
            · by_cases h4 : k = k''
              · simp only [omSet, if_neg h3, if_pos h4] at homset
                cases homset
                subst h4
                exact (List.chain'_cons.mp hs).1
              · simp only [omSet, if_neg h3, if_neg h4] at homset
                cases homset
                exact (List.chain'_cons.mp hs).1

/-- What `rename` computes in each of its two source cases, provided its
three assertions pass. -/
theorem rename_cases (t : PGTransaction) (target source : Hoid)
    (hsrc : source.temp = true) (htgt : target.temp = false)
    (hpre : ((omGet t.op_map target).is_none ||
      (omGet t.op_map target).is_delete) = true) :
    (∀ sop, omLookup t.op_map source = some sop →
      t.rename target source = some ⟨omSet
        (omErase (omSet t.op_map target (omGet t.op_map target)) source)
        target { sop with init_type := .Rename source }⟩) ∧
    (omLookup t.op_map source = none →
      t.rename target source = some ⟨omSet
        (omSet t.op_map target (omGet t.op_map target)) target
        { (omGet t.op_map target) with init_type := .Rename source }⟩) := by
  have hne : source ≠ target := by
    intro h
    rw [h, htgt] at hsrc
    cases hsrc
  constructor
  · intro sop hlook
    have hm0 : omLookup (omSet t.op_map target (omGet t.op_map target))
        source = some sop := by
      rw [omLookup_omSet_ne _ hne, hlook]
    simp [PGTransaction.rename, hsrc, htgt, hpre, hm0]
  · intro hlook
    have hm0 : omLookup (omSet t.op_map target (omGet t.op_map target))
        source = none := by
      rw [omLookup_omSet_ne _ hne, hlook]
    simp [PGTransaction.rename, hsrc, htgt, hpre, hm0]

/-- C6: `rename(target, source)` requires a temp source, a non-temp target
and a none-or-delete op at the target; when the source has an op, that op is
moved onto the target (becoming its op with `init = Rename{source}`) and the
source key is erased from the op map. -/
theorem C6_rename_moves (t : PGTransaction) (target source : Hoid)
    (sop : ObjectOperation) (hs : keysSorted t.op_map = true)
    (hsrc : source.temp = true) (htgt : target.temp = false)
    (hpre : ((omGet t.op_map target).is_none ||
      (omGet t.op_map target).is_delete) = true)
    (hlook : omLookup t.op_map source = some sop) :
    ∃ t' : PGTransaction, t.rename target source = some t' ∧
      omLookup t'.op_map source = none ∧
      omLookup t'.op_map target =
        some { sop with init_type := .Rename source } := by
  have hne : source ≠ target := by
    intro h
    rw [h, htgt] at hsrc
    cases hsrc
  have heq := (rename_cases t target source hsrc htgt hpre).1 sop hlook
  refine ⟨_, heq, ?_, ?_⟩
  · rw [omLookup_omSet_ne _ hne,
      omLookup_omErase_self (keysSorted_omSet hs target _) source]
  · rw [omLookup_omSet_self]

def wT : Hoid := ⟨1, true⟩

def wD : Hoid := ⟨0, false⟩

def wOpT : ObjectOperation :=
  { buffer_updates := [(0, 4, .Write [10, 11, 12, 13] 0)] }

def wMap : OpMap := [(wT, wOpT)]

theorem C6_rename_moves_witness :
    (PGTransaction.write ⟨[]⟩ wT 0 4 [10, 11, 12, 13] 0 = some ⟨wMap⟩ ∧
      keysSorted wMap = true ∧ wT.temp = true ∧ wD.temp = false ∧
      ((omGet wMap wD).is_none || (omGet wMap wD).is_delete) = true ∧
      omLookup wMap wT = some wOpT) ∧
    (∃ t' : PGTransaction, PGTransaction.rename ⟨wMap⟩ wD wT = some t' ∧
      omLookup t'.op_map wT = none ∧
      omLookup t'.op_map wD = some { wOpT with init_type := .Rename wT }) :=
  ⟨⟨by decide, by decide, rfl, rfl, by decide, by decide⟩,
    C6_rename_moves ⟨wMap⟩ wD wT wOpT (by decide) rfl rfl (by decide)
      (by decide)⟩

/-- C7: when the source has an op, `rename` overwrites the target's whole
previously-recorded op (any pending `delete_first` from `remove(target)`
included) with a copy of the source's op before setting `init`; when the
source has no op, the target's previously-recorded fields are retained. -/
theorem C7_rename_target_fields (t : PGTransaction) (target source : Hoid)
    (hsrc : source.temp = true) (htgt : target.temp = false)
    (hpre : ((omGet t.op_map target).is_none ||
      (omGet t.op_map target).is_delete) = true) :
    (∀ sop, omLookup t.op_map source = some sop →
      ∃ t' : PGTransaction, t.rename target source = some t' ∧
        omLookup t'.op_map target =
          some { sop with init_type := .Rename source }) ∧
    (omLookup t.op_map source = none →
      ∃ t' : PGTransaction, t.rename target source = some t' ∧
        omLookup t'.op_map target =
          some { (omGet t.op_map target) with init_type := .Rename source }) := by
  constructor
  · intro sop hlook
    exact ⟨_, (rename_cases t target source hsrc htgt hpre).1 sop hlook,
      omLookup_omSet_self _ _ _⟩
  · intro hlook
    exact ⟨_, (rename_cases t target source hsrc htgt hpre).2 hlook,
      omLookup_omSet_self _ _ _⟩

def wMapC7 : OpMap := [(wD, { delete_first := true }), (wT, wOpT)]

theorem C7_rename_target_fields_witness :
    (wT.temp = true ∧ wD.temp = false ∧
      ((omGet wMapC7 wD).is_none || (omGet wMapC7 wD).is_delete) = true ∧
      omLookup wMapC7 wT = some wOpT ∧
      (omGet wMapC7 wD).delete_first = true) ∧
    (∃ t' : PGTransaction, PGTransaction.rename ⟨wMapC7⟩ wD wT = some t' ∧
      omLookup t'.op_map wD = some { wOpT with init_type := .Rename wT }) :=
  ⟨⟨rfl, rfl, by decide, by decide, by decide⟩,
    (C7_rename_target_fields ⟨wMapC7⟩ wD wT rfl rfl (by decide)).1 wOpT
      (by decide)⟩

/-- C8: on an op that is not `is_delete`, `omap_clear` sets
`clear_omap = true`, empties `omap_updates`, resets `omap_header`, and
leaves every other field of that op and every other object's op unchanged. -/
theorem C8_omap_clear_frame (t : PGTransaction) (hoid : Hoid)
    (op : ObjectOperation) (hlook : omLookup t.op_map hoid = some op)
    (hdel : op.is_delete = false) :
    ∃ t' : PGTransaction, t.omap_clear hoid = some t' ∧
      omLookup t'.op_map hoid = some { op with
        clear_omap := true, omap_updates := [], omap_header := none } ∧
      ∀ h' : Hoid, h' ≠ hoid →
        omLookup t'.op_map h' = omLookup t.op_map h' := by
  have homget : omGet t.op_map hoid = op := by
    rw [omGet, hlook]
    rfl
  have heq : t.omap_clear hoid = some ⟨omSet t.op_map hoid { op with
      clear_omap := true, omap_updates := [], omap_header := none }⟩ := by
    simp [PGTransaction.omap_clear, getObjectOpForModify, homget, hdel]
  refine ⟨_, heq, omLookup_omSet_self _ _ _, ?_⟩
  intro h' hne
  exact omLookup_omSet_ne _ hne _

def wOpC8 : ObjectOperation where
  omap_updates := [(OmapUpdateType.Insert, [1])]
  omap_header := some [2]
  truncate := some 7

def wMapC8 : OpMap := [(wD, wOpC8)]

theorem C8_omap_clear_frame_witness :
    (omLookup wMapC8 wD = some wOpC8 ∧ wOpC8.is_delete = false) ∧
    (∃ t' : PGTransaction, PGTransaction.omap_clear ⟨wMapC8⟩ wD = some t' ∧
      omLookup t'.op_map wD = some { wOpC8 with
        clear_omap := true, omap_updates := [], omap_header := none } ∧
      ∀ h' : Hoid, h' ≠ wD →
        omLookup t'.op_map h' = omLookup wMapC8 h') :=
  ⟨⟨by decide, by decide⟩,
    C8_omap_clear_frame ⟨wMapC8⟩ wD wOpC8 (by decide) (by decide)⟩

/-- C9: on an op with `is_delete` (init `None`, `delete_first = true`), every
mutation routed through `get_object_op_for_modify` hits the `¬is_delete`
assertion and aborts (modelled as `none`), while `create`, `clone` and
`rename` targeting that object succeed, their `is_none ∨ is_delete`
precondition holding; no operation returns an error value. -/
theorem C9_delete_asserts (t : PGTransaction) (hoid : Hoid)
    (op : ObjectOperation) (hlook : omLookup t.op_map hoid = some op)
    (hdel : op.is_delete = true) :
    t.remove hoid = none ∧
    (∀ snaps, t.update_snaps hoid snaps = none) ∧
    t.omap_clear hoid = none ∧
    (∀ off, t.truncate hoid off = none) ∧
    (∀ attrs, t.setattrs hoid attrs = none) ∧
    (∀ k bl, t.setattr hoid k bl = none) ∧
    (∀ k, t.rmattr hoid k = none) ∧
    (∀ a b c, t.set_alloc_hint hoid a b c = none) ∧
    (∀ off len bl f, t.write hoid off len bl f = none) ∧
    (∀ off len, t.zero hoid off len = none) ∧
    (∀ src fromoff len tooff,
      t.clone_range src hoid fromoff len tooff = none) ∧
    (∀ bl, t.omap_setkeys hoid bl = none) ∧
    (∀ bl, t.omap_rmkeys hoid bl = none) ∧
    (∀ bl, t.omap_setheader hoid bl = none) ∧
    t.nop hoid = none ∧
    (t.create hoid).isSome = true ∧
    (∀ src, (t.clone hoid src).isSome = true) ∧
    (∀ src : Hoid, src.temp = true → hoid.temp = false →
      (t.rename hoid src).isSome = true) := by
  have homget : omGet t.op_map hoid = op := by
    rw [omGet, hlook]
    rfl
  have hgm : getObjectOpForModify t hoid = none := by
    simp [getObjectOpForModify, homget, hdel]
  refine ⟨?_, ?_, ?_, ?_, ?_, ?_, ?_, ?_, ?_, ?_, ?_, ?_, ?_, ?_, ?_, ?_,
    ?_, ?_⟩
  · simp [PGTransaction.remove, hgm]
  · intro snaps; simp [PGTransaction.update_snaps, hgm]
  · simp [PGTransaction.omap_clear, hgm]
  · intro off; simp [PGTransaction.truncate, hgm]
  · intro attrs; simp [PGTransaction.setattrs, hgm]
  · intro k bl; simp [PGTransaction.setattr, hgm]
  · intro k; simp [PGTransaction.rmattr, hgm]
  · intro a b c; simp [PGTransaction.set_alloc_hint, hgm]
  · intro off len bl f; simp [PGTransaction.write, hgm]
  · intro off len; simp [PGTransaction.zero, hgm]
  · intro src fromoff len tooff; simp [PGTransaction.clone_range, hgm]
  · intro bl; simp [PGTransaction.omap_setkeys, hgm]
  · intro bl; simp [PGTransaction.omap_rmkeys, hgm]
  · intro bl; simp [PGTransaction.omap_setheader, hgm]
  · simp [PGTransaction.nop, hgm]
  · simp [PGTransaction.create, homget, hdel]
  · intro src; simp [PGTransaction.clone, homget, hdel]
  · intro src hsrc htgt
    have hm0 := omLookup (omSet t.op_map hoid op) src
    simp only [PGTransaction.rename, hsrc, htgt, homget, hdel]
    rcases homl : omLookup (omSet t.op_map hoid op) src with _ | sop <;>
      simp [homl, hdel]

def wOpC9 : ObjectOperation where
  delete_first := true

def wMapC9 : OpMap := [(wD, wOpC9)]

theorem C9_delete_asserts_witness :
    (omLookup wMapC9 wD = some wOpC9 ∧ wOpC9.is_delete = true) ∧
    (PGTransaction.remove ⟨wMapC9⟩ wD = none ∧
      (∀ snaps, PGTransaction.update_snaps ⟨wMapC9⟩ wD snaps = none) ∧
      PGTransaction.omap_clear ⟨wMapC9⟩ wD = none ∧
      (∀ off, PGTransaction.truncate ⟨wMapC9⟩ wD off = none) ∧
      (∀ attrs, PGTransaction.setattrs ⟨wMapC9⟩ wD attrs = none) ∧
      (∀ k bl, PGTransaction.setattr ⟨wMapC9⟩ wD k bl = none) ∧
      (∀ k, PGTransaction.rmattr ⟨wMapC9⟩ wD k = none) ∧
      (∀ a b c, PGTransaction.set_alloc_hint ⟨wMapC9⟩ wD a b c = none) ∧
      (∀ off len bl f, PGTransaction.write ⟨wMapC9⟩ wD off len bl f = none) ∧
      (∀ off len, PGTransaction.zero ⟨wMapC9⟩ wD off len = none) ∧
      (∀ src fromoff len tooff,
        PGTransaction.clone_range ⟨wMapC9⟩ src wD fromoff len tooff = none) ∧
      (∀ bl, PGTransaction.omap_setkeys ⟨wMapC9⟩ wD bl = none) ∧
      (∀ bl, PGTransaction.omap_rmkeys ⟨wMapC9⟩ wD bl = none) ∧
      (∀ bl, PGTransaction.omap_setheader ⟨wMapC9⟩ wD bl = none) ∧
      PGTransaction.nop ⟨wMapC9⟩ wD = none ∧
      (PGTransaction.create ⟨wMapC9⟩ wD).isSome = true ∧
      (∀ src, (PGTransaction.clone ⟨wMapC9⟩ wD src).isSome = true) ∧
      (∀ src : Hoid, src.temp = true → wD.temp = false →
        (PGTransaction.rename ⟨wMapC9⟩ wD src).isSome = true)) :=
  ⟨⟨by decide, by decide⟩,
    C9_delete_asserts ⟨wMapC9⟩ wD wOpC9 (by decide) (by decide)⟩

/-- C2: evaluation of `truncate` at the spec's own scenario.  The guard
`*(op.truncate) >= off` early-returns only when the recorded value is at
least the new offset, so `truncate(O,100)` then `truncate(O,200)` stores
`200`, not the `min` (`100`) that the spec's P3 demands; and on the reverse
order `truncate(O,200)` then `truncate(O,100)` the early return also skips
the erase, leaving a buffer update at `[150,160)` that intersects
`[100, ∞)`. -/
theorem C2_truncate_eval :
    ((PGTransaction.truncate ⟨[]⟩ wD 100).bind
        (fun t1 => PGTransaction.truncate t1 wD 200)).map
      (fun t2 => (omGet t2.op_map wD).truncate) = some (some 200) ∧
    some (some 200) ≠ some (some 100) ∧
    (((PGTransaction.write ⟨[]⟩ wD 150 10 [1,2,3,4,5,6,7,8,9,10] 0).bind
        (fun t => PGTransaction.truncate t wD 200)).bind
        (fun t => PGTransaction.truncate t wD 100)).map
      (fun t => (omGet t.op_map wD).buffer_updates) =
      some [(150, 10, .Write [1,2,3,4,5,6,7,8,9,10] 0)] := by
  refine ⟨by decide, by decide, by decide⟩

/-!
`safe_create_traverse`.  The reverse-adjacency `dgraph` (a `std::map` of
which only `operator[]`, `find` and `erase` are used) is embedded as an
association list; the work list `stack` as a list of ids.
-/

abbrev DGraph := List (Hoid × List Hoid)

def dgFind : DGraph → Hoid → Option (List Hoid)
  | [], _ => none
  | (k, l) :: t, h => if h = k then some l else dgFind t h

def dgFindD (g : DGraph) (h : Hoid) : List Hoid := (dgFind g h).getD []

def dgSet : DGraph → Hoid → List Hoid → DGraph
  | [], h, l => [(h, l)]
  | (k, w) :: t, h, l => if h = k then (h, l) :: t else (k, w) :: dgSet t h l

def dgErase : DGraph → Hoid → DGraph
  | [], _ => []
  | (k, w) :: t, h => if h = k then t else (k, w) :: dgErase t h

/-- All target lists of the graph, concatenated. -/
def dgConcat (g : DGraph) : List Hoid := g.flatMap (fun p => p.2)

/-- One step of the first loop of `safe_create_traverse`: record the reverse
edge of an op that has a source (seeding the stack when the source is new
and absent from the op map), or push a rootless op. -/
def buildStep (full : OpMap) (acc : DGraph × List Hoid)
    (p : Hoid × ObjectOperation) : DGraph × List Hoid :=
  match p.2.has_source with
  | some s =>
    let l := dgFindD acc.1 s
    let st := if l.isEmpty && !omContains full s then acc.2 ++ [s] else acc.2
    (dgSet acc.1 s (l ++ [p.1]), st)
  | none => (acc.1, acc.2 ++ [p.1])

def buildPhase (m : OpMap) : DGraph × List Hoid :=
  m.foldl (buildStep m) ([], [])

def dgWeight (g : DGraph) : Nat := (g.map (fun p => p.2.length + 1)).sum

theorem dgWeight_erase : ∀ {g : DGraph} {c : Hoid} {ch : List Hoid},
    dgFind g c = some ch →
    dgWeight g = ch.length + 1 + dgWeight (dgErase g c) := by
  intro g
  induction g with
  | nil => intro c ch h; cases h
  | cons p t ih =>
    intro c ch h
    obtain ⟨k, l⟩ := p
    by_cases h1 : c = k
    · subst h1
      simp only [dgFind, if_true, eq_self_iff_true, Option.some.injEq] at h
      subst h
      simp only [dgErase, if_true, eq_self_iff_true, dgWeight, List.map_cons,
        List.sum_cons]
    · simp only [dgFind, if_neg h1] at h
      simp only [dgErase, if_neg h1, dgWeight, List.map_cons, List.sum_cons]
      have := ih h
      simp only [dgWeight] at this
      omega

/-- The second loop of `safe_create_traverse`: inspect the stack front; a
node still carrying reverse edges is expanded (children spliced to the
front, its entry erased), a leaf is emitted — when present in the op map —
and popped. -/
def runPhase (m : OpMap) : List Hoid → DGraph → List (Hoid × ObjectOperation)
  | [], _ => []
  | cur :: rest, g =>
    match hfind : dgFind g cur with
    | some ch => runPhase m (ch ++ cur :: rest) (dgErase g cur)
    | none =>
      match omLookup m cur with
      | some op => (cur, op) :: runPhase m rest g
      | none => runPhase m rest g
termination_by stack g => stack.length + 2 * dgWeight g
decreasing_by
  · have := dgWeight_erase hfind
    simp only [List.length_append, List.length_cons]
    omega
  · simp only [List.length_cons]
    omega

/-- `PGTransaction::safe_create_traverse`, returning the visited pairs in
visit order. -/
def PGTransaction.safe_create_traverse (t : PGTransaction) :
    List (Hoid × ObjectOperation) :=
  runPhase t.op_map (buildPhase t.op_map).2 (buildPhase t.op_map).1

theorem run_unfold_expand (m : OpMap) (cur : Hoid) (rest : List Hoid)
    (g : DGraph) (ch : List Hoid) (hfind : dgFind g cur = some ch) :
    runPhase m (cur :: rest) g =
      runPhase m (ch ++ cur :: rest) (dgErase g cur) := by
  rw [runPhase]
  split
  · next ch' hfind' =>
    rw [hfind] at hfind'
    cases hfind'
    rfl
  · next hfind' =>
    rw [hfind] at hfind'
    cases hfind'

theorem run_unfold_emit (m : OpMap) (cur : Hoid) (rest : List Hoid)
    (g : DGraph) (op : ObjectOperation) (hfind : dgFind g cur = none)
    (hlook : omLookup m cur = some op) :
    runPhase m (cur :: rest) g = (cur, op) :: runPhase m rest g := by
  rw [runPhase]
  split
  · next ch' hfind' =>
    rw [hfind] at hfind'
    cases hfind'
  · next =>
    rw [hlook]

theorem run_unfold_skip (m : OpMap) (cur : Hoid) (rest : List Hoid)
    (g : DGraph) (hfind : dgFind g cur = none) (hlook : omLookup m cur = none) :
    runPhase m (cur :: rest) g = runPhase m rest g := by
  rw [runPhase]
  split
  · next ch' hfind' =>
    rw [hfind] at hfind'
    cases hfind'
  · next =>
    rw [hlook]

theorem dgFind_dgSet_self (g : DGraph) (k : Hoid) (l : List Hoid) :
    dgFind (dgSet g k l) k = some l := by
  induction g with
  | nil => simp [dgSet, dgFind]
  | cons p t ih =>
    obtain ⟨k', w⟩ := p
    by_cases h : k = k'
    · subst h
      simp [dgSet, dgFind]
    · simp [dgSet, dgFind, h, ih]

theorem dgFind_dgSet_ne (g : DGraph) {h k : Hoid} (hne : h ≠ k)
    (l : List Hoid) : dgFind (dgSet g k l) h = dgFind g h := by
  induction g with
  | nil => simp [dgSet, dgFind, hne]
  | cons p t ih =>
    obtain ⟨k', w⟩ := p
    by_cases h1 : k = k'
    · subst h1
      simp [dgSet, dgFind, hne]
    · by_cases h2 : h = k'
      · simp [dgSet, dgFind, h1, h2]
      · simp [dgSet, dgFind, h1, h2, ih]

theorem dgFind_dgErase_ne (g : DGraph) {h k : Hoid} (hne : h ≠ k) :
    dgFind (dgErase g k) h = dgFind g h := by
  induction g with
  | nil => rfl
  | cons p t ih =>
    obtain ⟨k', w⟩ := p
    by_cases h1 : k = k'
    · subst h1
      simp [dgErase, dgFind, hne]
    · by_cases h2 : h = k'
      · simp [dgErase, dgFind, h1, h2]
      · simp [dgErase, dgFind, h1, h2, ih]

theorem dgFind_isSome_of_mem {g : DGraph} {p : Hoid × List Hoid}
    (hp : p ∈ g) : ∃ l, dgFind g p.1 = some l := by
  induction g with
  | nil => cases hp
  | cons q t ih =>
    obtain ⟨k, w⟩ := q
    by_cases h : p.1 = k
    · exact ⟨w, by simp [dgFind, h]⟩
    · rcases List.mem_cons.mp hp with heq | hmem
      · exfalso
        exact h (by rw [heq])
      · obtain ⟨l, hl⟩ := ih hmem
        exact ⟨l, by simp [dgFind, h, hl]⟩

theorem dgErase_subset {g : DGraph} {c : Hoid} :
    ∀ p ∈ dgErase g c, p ∈ g := by
  induction g with
  | nil => intro p hp; cases hp
  | cons q t ih =>
    obtain ⟨k, w⟩ := q
    intro p hp
    by_cases h : c = k
    · simp only [dgErase, if_pos h] at hp
      exact List.mem_cons_of_mem _ hp
    · simp only [dgErase, if_neg h] at hp
      rcases List.mem_cons.mp hp with heq | hmem
      · exact heq ▸ List.mem_cons_self _ _
      · exact List.mem_cons_of_mem _ (ih p hmem)

theorem mem_dgErase_or {g : DGraph} {c : Hoid} {ch : List Hoid}
    (hf : dgFind g c = some ch) :
    ∀ p ∈ g, p ∈ dgErase g c ∨ p = (c, ch) := by
  induction g with
  | nil => intro p hp; cases hp
  | cons q t ih =>
    obtain ⟨k, w⟩ := q
    intro p hp
    by_cases h : c = k
    · subst h
      simp only [dgFind, if_true, eq_self_iff_true, Option.some.injEq] at hf
      subst hf
      simp only [dgErase, if_true, eq_self_iff_true]
      rcases List.mem_cons.mp hp with heq | hmem
      · exact Or.inr heq
      · exact Or.inl hmem
    · simp only [dgFind, if_neg h] at hf
      simp only [dgErase, if_neg h]
      rcases List.mem_cons.mp hp with heq | hmem
      · exact Or.inl (heq ▸ List.mem_cons_self _ _)
      · rcases ih hf p hmem with h1 | h1
        · exact Or.inl (List.mem_cons_of_mem _ h1)
        · exact Or.inr h1

theorem dgConcat_count_erase {g : DGraph} {c : Hoid} {ch : List Hoid}
    (hf : dgFind g c = some ch) (x : Hoid) :
    (dgConcat g).count x = ch.count x + (dgConcat (dgErase g c)).count x := by
  induction g with
  | nil => cases hf
  | cons q t ih =>
    obtain ⟨k, w⟩ := q
    by_cases h : c = k
    · subst h
      simp only [dgFind, if_true, eq_self_iff_true, Option.some.injEq] at hf
      subst hf
      simp only [dgErase, if_true, eq_self_iff_true, dgConcat,
        List.flatMap_cons, List.count_append]
    · simp only [dgFind, if_neg h] at hf
      simp only [dgErase, if_neg h, dgConcat, List.flatMap_cons,
        List.count_append]
      have := ih hf
      simp only [dgConcat] at this
      omega

/-- Run-phase invariant: every node carrying reverse edges is still
pending, either on the stack or inside another node's target list. -/
def trJ1 (stack : List Hoid) (g : DGraph) : Prop :=
  ∀ p ∈ g, p.1 ∈ stack ∨ ∃ q ∈ g, p.1 ∈ q.2

/-- Run-phase invariant: targets rank strictly below their source
(acyclicity of the clone/rename graph). -/
def trJ2 (rank : Hoid → Nat) (g : DGraph) : Prop :=
  ∀ p ∈ g, ∀ x ∈ p.2, rank x < rank p.1

/-- Run-phase invariant: each id occurs at most once in the stack and the
target lists combined. -/
def trD (stack : List Hoid) (g : DGraph) : Prop :=
  ∀ x : Hoid, stack.count x + (dgConcat g).count x ≤ 1

theorem exists_max_rank {α : Type} (f : α → Nat) :
    ∀ (l : List α), l ≠ [] → ∃ a ∈ l, ∀ b ∈ l, f b ≤ f a := by
  intro l
  induction l with
  | nil => intro h; exact absurd rfl h
  | cons a t ih =>
    intro _
    cases t with
    | nil =>
      refine ⟨a, List.mem_cons_self _ _, ?_⟩
      intro b hb
      rcases List.mem_cons.mp hb with rfl | hb'
      · exact Nat.le_refl _
      · cases hb'
    | cons c t' =>
      obtain ⟨b, hb, hmax⟩ := ih (by simp)
      by_cases h : f b ≤ f a
      · refine ⟨a, List.mem_cons_self _ _, ?_⟩
        intro x hx
        rcases List.mem_cons.mp hx with rfl | hx'
        · exact Nat.le_refl _
        · exact Nat.le_trans (hmax x hx') h
      · refine ⟨b, List.mem_cons_of_mem a hb, ?_⟩
        intro x hx
        rcases List.mem_cons.mp hx with rfl | hx'
        · omega
        · exact hmax x hx'

/-- A graph in which every key is some list's element collapses under a
rank function: it must be empty. -/
theorem dg_nil_of_grounded {g : DGraph} (rank : Hoid → Nat)
    (hJ1 : ∀ p ∈ g, ∃ q ∈ g, p.1 ∈ q.2) (hJ2 : trJ2 rank g) : g = [] := by
  by_contra hne
  obtain ⟨p, hp, hmax⟩ := exists_max_rank (fun q => rank q.1) g hne
  obtain ⟨q, hq, hpq⟩ := hJ1 p hp
  have h1 := hJ2 q hq p.1 hpq
  have h2 := hmax q hq
  omega

theorem trJ1_expand {stack : List Hoid} {g : DGraph} {cur : Hoid}
    {ch : List Hoid} (hfind : dgFind g cur = some ch)
    (h : trJ1 (cur :: stack) g) :
    trJ1 (ch ++ cur :: stack) (dgErase g cur) := by
  intro p hp
  have hpg : p ∈ g := dgErase_subset p hp
  rcases h p hpg with hmem | ⟨q, hq, hpq⟩
  · exact Or.inl (List.mem_append.mpr (Or.inr hmem))
  · rcases mem_dgErase_or hfind q hq with hq' | heq
    · exact Or.inr ⟨q, hq', hpq⟩
    · subst heq
      exact Or.inl (List.mem_append.mpr (Or.inl hpq))

theorem trJ1_pop {stack : List Hoid} {g : DGraph} {cur : Hoid}
    (hfind : dgFind g cur = none) (h : trJ1 (cur :: stack) g) :
    trJ1 stack g := by
  intro p hp
  rcases h p hp with hmem | hex
  · rcases List.mem_cons.mp hmem with heq | hmem'
    · exfalso
      obtain ⟨l, hl⟩ := dgFind_isSome_of_mem hp
      rw [heq, hfind] at hl
      cases hl
    · exact Or.inl hmem'
  · exact Or.inr hex

theorem trJ2_erase {rank : Hoid → Nat} {g : DGraph} {c : Hoid}
    (h : trJ2 rank g) : trJ2 rank (dgErase g c) :=
  fun p hp => h p (dgErase_subset p hp)

theorem trD_expand {stack : List Hoid} {g : DGraph} {cur : Hoid}
    {ch : List Hoid} (hfind : dgFind g cur = some ch)
    (h : trD (cur :: stack) g) :
    trD (ch ++ cur :: stack) (dgErase g cur) := by
  intro x
  have h1 := h x
  have h2 := dgConcat_count_erase hfind x
  rw [List.count_append]
  omega

theorem trD_pop {stack : List Hoid} {g : DGraph} {cur : Hoid}
    (h : trD (cur :: stack) g) : trD stack g := by
  intro x
  have h1 := h x
  simp only [List.count_cons] at h1
  omega

/-- Every pair the traversal loop emits is a genuine entry of the op map
(a source absent from the op map is popped silently, never visited). -/
theorem run_mem (m : OpMap) : ∀ (stack : List Hoid) (g : DGraph),
    ∀ p ∈ runPhase m stack g, omLookup m p.1 = some p.2 := by
  intro stack g
  induction stack, g using runPhase.induct m with
  | case1 g =>
    intro p hp
    rw [runPhase] at hp
    cases hp
  | case2 cur rest g ch hfind ih =>
    intro p hp
    rw [run_unfold_expand m cur rest g ch hfind] at hp
    exact ih p hp
  | case3 cur rest g hfind op hlook ih =>
    intro p hp
    rw [run_unfold_emit m cur rest g op hfind hlook] at hp
    rcases List.mem_cons.mp hp with heq | hmem
    · subst heq
      exact hlook
    · exact ih p hmem
  | case4 cur rest g hfind hlook ih =>
    intro p hp
    rw [run_unfold_skip m cur rest g hfind hlook] at hp
    exact ih p hp

/-- Exactly-once counting: each id present in the op map is emitted as many
times as it occurs in the stack plus the graph's target lists; ids absent
from the op map are never emitted. -/
theorem run_count (m : OpMap) (rank : Hoid → Nat) :
    ∀ (stack : List Hoid) (g : DGraph), trJ1 stack g → trJ2 rank g →
      ∀ n : Hoid, ((runPhase m stack g).map Prod.fst).count n =
        if omContains m n = true then
          stack.count n + (dgConcat g).count n
        else 0 := by
  intro stack g
  induction stack, g using runPhase.induct m with
  | case1 g =>
    intro hJ1 hJ2 n
    have hnil : g = [] := by
      refine dg_nil_of_grounded rank ?_ hJ2
      intro p hp
      rcases hJ1 p hp with h | h
      · cases h
      · exact h
    subst hnil
    rw [runPhase]
    simp [dgConcat]
  | case2 cur rest g ch hfind ih =>
    intro hJ1 hJ2 n
    rw [run_unfold_expand m cur rest g ch hfind,
      ih (trJ1_expand hfind hJ1) (trJ2_erase hJ2) n]
    have h2 := dgConcat_count_erase hfind n
    split
    · rw [List.count_append]
      omega
    · rfl
  | case3 cur rest g hfind op hlook ih =>
    intro hJ1 hJ2 n
    rw [run_unfold_emit m cur rest g op hfind hlook, List.map_cons]
    have hih := ih (trJ1_pop hfind hJ1) hJ2 n
    by_cases hn : n = cur
    · subst hn
      have hcont : omContains m n = true := by
        simp [omContains, hlook]
      rw [List.count_cons]
      rw [hih, if_pos hcont]
      rw [if_pos hcont]
      simp only [List.count_cons]
      simp
      omega
    · rw [List.count_cons]
      have hne : ¬((cur, op).1 == n) = true := by
        simp [hn]
        intro h
        exact hn h.symm
      rw [hih]
      simp only [List.count_cons]
      split
      · simp [show ¬(cur == n) = true from by simpa using fun h => hn h.symm]
      · simp [show ¬(cur == n) = true from by simpa using fun h => hn h.symm]
  | case4 cur rest g hfind hlook ih =>
    intro hJ1 hJ2 n
    rw [run_unfold_skip m cur rest g hfind hlook]
    have hih := ih (trJ1_pop hfind hJ1) hJ2 n
    by_cases hn : n = cur
    · subst hn
      have hcont : omContains m n = false := by
        simp [omContains, hlook]
      rw [hih, hcont]
      simp
    · rw [hih]
      split
      · simp [List.count_cons, show ¬(cur == n) = true from by
          simpa using fun h => hn h.symm]
      · rfl

/-- Ordering: while `n` is pending strictly ahead of `s` — inside `s`'s
still-unexpanded target list, or on the stack strictly in front of `s` —
every emission of `s` is preceded by an emission of `n`. -/
theorem run_before (m : OpMap) {n s : Hoid} (hn : omContains m n = true) :
    ∀ (stack : List Hoid) (g : DGraph), trD stack g →
      ((∃ ch, dgFind g s = some ch ∧ n ∈ ch) ∨
        (∃ a b, stack = a ++ s :: b ∧ n ∈ a)) →
      ∀ o1 p o2, runPhase m stack g = o1 ++ p :: o2 → p.1 = s →
        n ∈ o1.map Prod.fst := by
  intro stack g
  induction stack, g using runPhase.induct m with
  | case1 g =>
    intro hD hah o1 p o2 hsplit hps
    rw [runPhase] at hsplit
    exact absurd hsplit.symm (by simp)
  | case2 cur rest g ch hfind ih =>
    intro hD hah o1 p o2 hsplit hps
    rw [run_unfold_expand m cur rest g ch hfind] at hsplit
    refine ih (trD_expand hfind hD) ?_ o1 p o2 hsplit hps
    rcases hah with ⟨ch0, hch0, hnch⟩ | ⟨a, b, hab, hna⟩
    · by_cases hsc : s = cur
      · subst hsc
        rw [hfind] at hch0
        cases hch0
        exact Or.inr ⟨ch, rest, rfl, hnch⟩
      · refine Or.inl ⟨ch0, ?_, hnch⟩
        rw [dgFind_dgErase_ne g hsc]
        exact hch0
    · cases a with
      | nil => cases hna
      | cons a0 a' =>
        rw [List.cons_append] at hab
        injection hab with hc hr
        subst hc
        subst hr
        refine Or.inr ⟨ch ++ cur :: a', b, by simp, ?_⟩
        rcases List.mem_cons.mp hna with rfl | hna'
        · exact List.mem_append.mpr (Or.inr (List.mem_cons_self _ _))
        · exact List.mem_append.mpr
            (Or.inr (List.mem_cons_of_mem _ hna'))
  | case3 cur rest g hfind op hlook ih =>
    intro hD hah o1 p o2 hsplit hps
    rw [run_unfold_emit m cur rest g op hfind hlook] at hsplit
    cases o1 with
    | nil =>
      simp only [List.nil_append] at hsplit
      injection hsplit with hp0 htail
      have hcs : cur = s := by
        rw [← hp0] at hps
        exact hps
      rcases hah with ⟨ch0, hch0, _⟩ | ⟨a, b, hab, hna⟩
      · rw [← hcs, hfind] at hch0
        cases hch0
      · cases a with
        | nil => cases hna
        | cons a0 a' =>
          rw [List.cons_append] at hab
          injection hab with hc hr
          exfalso
          have hDs := hD s
          rw [hcs, hr] at hDs
          simp [List.count_cons, List.count_append] at hDs
          omega
    | cons q o1' =>
      rw [List.cons_append] at hsplit
      injection hsplit with hq hrest
      subst hq
      by_cases hnc : n = cur
      · subst hnc
        exact List.mem_cons_self _ _
      · rw [List.map_cons]
        refine List.mem_cons_of_mem _ ?_
        refine ih (trD_pop hD) ?_ o1' p o2 hrest hps
        rcases hah with hA | ⟨a, b, hab, hna⟩
        · exact Or.inl hA
        · cases a with
          | nil => cases hna
          | cons a0 a' =>
            rw [List.cons_append] at hab
            injection hab with hc hr
            subst hc
            rcases List.mem_cons.mp hna with heq | hna'
            · exact absurd heq.symm (fun h => hnc h.symm)
            · exact Or.inr ⟨a', b, hr, hna'⟩
  | case4 cur rest g hfind hlook ih =>
    intro hD hah o1 p o2 hsplit hps
    rw [run_unfold_skip m cur rest g hfind hlook] at hsplit
    refine ih (trD_pop hD) ?_ o1 p o2 hsplit hps
    rcases hah with hA | ⟨a, b, hab, hna⟩
    · exact Or.inl hA
    · cases a with
      | nil => cases hna
      | cons a0 a' =>
        rw [List.cons_append] at hab
        injection hab with hc hr
        subst hc
        rcases List.mem_cons.mp hna with heq | hna'
        · exfalso
          subst heq
          rw [omContains, hlook] at hn
          cases hn
        · exact Or.inr ⟨a', b, hr, hna'⟩

theorem dgFind_mem {g : DGraph} {k : Hoid} {l : List Hoid}
    (h : dgFind g k = some l) : (k, l) ∈ g := by
  induction g with
  | nil => cases h
  | cons q t ih =>
    obtain ⟨k', w⟩ := q
    by_cases h1 : k = k'
    · subst h1
      simp only [dgFind, if_true, eq_self_iff_true, Option.some.injEq] at h
      subst h
      exact List.mem_cons_self _ _
    · simp only [dgFind, if_neg h1] at h
      exact List.mem_cons_of_mem _ (ih h)

theorem mem_dgSet_or {g : DGraph} {k : Hoid} {L : List Hoid} :
    ∀ q ∈ dgSet g k L, q = (k, L) ∨ q ∈ g := by
  induction g with
  | nil =>
    intro q hq
    rw [show dgSet [] k L = [(k, L)] from rfl, List.mem_singleton] at hq
    exact Or.inl hq
  | cons p t ih =>
    obtain ⟨k', w⟩ := p
    intro q hq
    by_cases h1 : k = k'
    · simp only [dgSet, if_pos h1] at hq
      rcases List.mem_cons.mp hq with heq | hmem
      · exact Or.inl heq
      · exact Or.inr (List.mem_cons_of_mem _ hmem)
    · simp only [dgSet, if_neg h1] at hq
      rcases List.mem_cons.mp hq with heq | hmem
      · exact Or.inr (heq ▸ List.mem_cons_self _ _)
      · rcases ih q hmem with h2 | h2
        · exact Or.inl h2
        · exact Or.inr (List.mem_cons_of_mem _ h2)

theorem dgFind_of_dgFindD_ne {g : DGraph} {k : Hoid}
    (h : dgFindD g k ≠ []) : dgFind g k = some (dgFindD g k) := by
  rcases hf : dgFind g k with _ | l
  · exfalso
    apply h
    rw [dgFindD, hf]
    rfl
  · rw [dgFindD, hf]
    rfl

theorem dgConcat_count_set (g : DGraph) (s : Hoid) (L : List Hoid)
    (x : Hoid) :
    (dgConcat (dgSet g s L)).count x + (dgFindD g s).count x =
      (dgConcat g).count x + L.count x := by
  induction g with
  | nil =>
    rw [show dgSet [] s L = [(s, L)] from rfl]
    simp [dgConcat, dgFindD, dgFind]
  | cons p t ih =>
    obtain ⟨k, w⟩ := p
    by_cases h1 : s = k
    · subst h1
      simp only [dgSet, if_true, eq_self_iff_true, dgConcat,
        List.flatMap_cons, List.count_append, dgFindD, dgFind,
        Option.getD_some]
      omega
    · simp only [dgSet, if_neg h1, dgConcat, List.flatMap_cons,
        List.count_append]
      have hD : dgFindD ((k, w) :: t) s = dgFindD t s := by
        simp [dgFindD, dgFind, fun h => h1 h]
      rw [hD]
      have := ih
      simp only [dgConcat] at this
      omega

/-- The final adjacency list of a source `s` is the prior one followed by the
targets whose op names `s`, in op-map order. -/
theorem build_list (full : OpMap) :
    ∀ (l : List (Hoid × ObjectOperation)) (g : DGraph) (st : List Hoid)
      (s : Hoid),
      dgFindD (l.foldl (buildStep full) (g, st)).1 s =
        dgFindD g s ++
          (l.filter (fun p => decide (p.2.has_source = some s))).map
            Prod.fst := by
  intro l
  induction l with
  | nil => intro g st s; simp
  | cons p l ih =>
    intro g st s
    rw [List.foldl_cons]
    rcases hsrc : p.2.has_source with _ | s'
    · rw [show buildStep full (g, st) p = (g, st ++ [p.1]) from by
        simp [buildStep, hsrc]]
      rw [ih]
      congr 1
      rw [List.filter_cons, if_neg (by simp [hsrc])]
    · by_cases hss : s' = s
      · subst hss
        rw [show buildStep full (g, st) p =
            (dgSet g s' (dgFindD g s' ++ [p.1]),
              if (dgFindD g s').isEmpty && !omContains full s' then
                st ++ [s'] else st) from by
          simp [buildStep, hsrc]]
        rw [ih]
        have hset : dgFindD (dgSet g s' (dgFindD g s' ++ [p.1])) s' =
            dgFindD g s' ++ [p.1] := by
          rw [dgFindD, dgFind_dgSet_self]
          rfl
        rw [hset, List.filter_cons, if_pos (by simp [hsrc]), List.map_cons,
          List.append_assoc]
        rfl
      · rw [show buildStep full (g, st) p =
            (dgSet g s' (dgFindD g s' ++ [p.1]),
              if (dgFindD g s').isEmpty && !omContains full s' then
                st ++ [s'] else st) from by
          simp [buildStep, hsrc]]
        rw [ih]
        have hset : dgFindD (dgSet g s' (dgFindD g s' ++ [p.1])) s =
            dgFindD g s := by
          rw [dgFindD, dgFind_dgSet_ne g (fun h => hss h.symm)]
          rfl
        rw [hset, List.filter_cons, if_neg (by simp [hsrc, hss])]

/-- The stack only grows during the build phase. -/
theorem build_stack_mono (full : OpMap) :
    ∀ (l : List (Hoid × ObjectOperation)) (g : DGraph) (st : List Hoid)
      (x : Hoid), x ∈ st → x ∈ (l.foldl (buildStep full) (g, st)).2 := by
  intro l
  induction l with
  | nil => intro g st x hx; exact hx
  | cons p l ih =>
    intro g st x hx
    rw [List.foldl_cons]
    rcases hsrc : p.2.has_source with _ | s'
    · rw [show buildStep full (g, st) p = (g, st ++ [p.1]) from by
        simp [buildStep, hsrc]]
      exact ih _ _ x (List.mem_append.mpr (Or.inl hx))
    · rw [show buildStep full (g, st) p =
          (dgSet g s' (dgFindD g s' ++ [p.1]),
            if (dgFindD g s').isEmpty && !omContains full s' then
              st ++ [s'] else st) from by
        simp [buildStep, hsrc]]
      refine ih _ _ x ?_
      split
      · exact List.mem_append.mpr (Or.inl hx)
      · exact hx

/-- A rootless op is pushed onto the stack during the build phase. -/
theorem build_root (full : OpMap) :
    ∀ (l : List (Hoid × ObjectOperation)) (g : DGraph) (st : List Hoid)
      (q : Hoid × ObjectOperation), q ∈ l → q.2.has_source = none →
      q.1 ∈ (l.foldl (buildStep full) (g, st)).2 := by
  intro l
  induction l with
  | nil => intro g st q hq; cases hq
  | cons p l ih =>
    intro g st q hq hnone
    rw [List.foldl_cons]
    rcases List.mem_cons.mp hq with heq | hmem
    · subst heq
      rw [show buildStep full (g, st) q = (g, st ++ [q.1]) from by
        simp [buildStep, hnone]]
      exact build_stack_mono full l _ _ q.1
        (List.mem_append.mpr (Or.inr (List.mem_cons_self _ _)))
    · exact ih _ _ q hmem hnone

/-- A source absent from the op map is seeded onto the stack (on its first
appearance). -/
theorem build_seed (full : OpMap) :
    ∀ (l : List (Hoid × ObjectOperation)) (g : DGraph) (st : List Hoid)
      (k : Hoid), omContains full k = false →
      (∃ q ∈ l, q.2.has_source = some k) → dgFindD g k = [] →
      k ∈ (l.foldl (buildStep full) (g, st)).2 := by
  intro l
  induction l with
  | nil =>
    intro g st k _ hex _
    obtain ⟨q, hq, _⟩ := hex
    cases hq
  | cons p l ih =>
    intro g st k hcont hex hempty
    rw [List.foldl_cons]
    rcases hsrc : p.2.has_source with _ | s'
    · rw [show buildStep full (g, st) p = (g, st ++ [p.1]) from by
        simp [buildStep, hsrc]]
      refine ih _ _ k hcont ?_ hempty
      obtain ⟨q, hq, hqs⟩ := hex
      rcases List.mem_cons.mp hq with heq | hmem
      · subst heq
        rw [hsrc] at hqs
        cases hqs
      · exact ⟨q, hmem, hqs⟩
    · by_cases hsk : s' = k
      · subst hsk
        rw [show buildStep full (g, st) p =
            (dgSet g s' (dgFindD g s' ++ [p.1]),
              if (dgFindD g s').isEmpty && !omContains full s' then
                st ++ [s'] else st) from by
          simp [buildStep, hsrc]]
        have hcond : ((dgFindD g s').isEmpty && !omContains full s') = true := by
          rw [hempty, hcont]
          rfl
        rw [if_pos hcond]
        exact build_stack_mono full l _ _ s'
          (List.mem_append.mpr (Or.inr (List.mem_cons_self _ _)))
      · rw [show buildStep full (g, st) p =
            (dgSet g s' (dgFindD g s' ++ [p.1]),
              if (dgFindD g s').isEmpty && !omContains full s' then
                st ++ [s'] else st) from by
          simp [buildStep, hsrc]]
        refine ih _ _ k hcont ?_ ?_
        · obtain ⟨q, hq, hqs⟩ := hex
          rcases List.mem_cons.mp hq with heq | hmem
          · subst heq
            rw [hsrc] at hqs
            exact absurd (Option.some.inj hqs) hsk
          · exact ⟨q, hmem, hqs⟩
        · rw [dgFindD, dgFind_dgSet_ne g (fun h => hsk h.symm)]
          exact hempty

/-- During the build phase, an id present in the op map is added to the
pending multiset (stack plus target lists) exactly once per op-map entry
carrying it, and never by seeding. -/
theorem build_count_contained (full : OpMap) {x : Hoid}
    (hc : omContains full x = true) :
    ∀ (l : List (Hoid × ObjectOperation)) (g : DGraph) (st : List Hoid),
      (l.foldl (buildStep full) (g, st)).2.count x +
        (dgConcat (l.foldl (buildStep full) (g, st)).1).count x =
      st.count x + (dgConcat g).count x + (l.map Prod.fst).count x := by
  intro l
  induction l with
  | nil => intro g st; simp
  | cons p l ih =>
    intro g st
    rw [List.foldl_cons, List.map_cons]
    rcases hsrc : p.2.has_source with _ | s'
    · rw [show buildStep full (g, st) p = (g, st ++ [p.1]) from by
        simp [buildStep, hsrc]]
      rw [ih]
      by_cases hpx : p.1 = x
      · simp [List.count_append, List.count_cons, hpx]
        omega
      · simp [List.count_append, List.count_cons, hpx,
          show ¬(p.1 == x) = true from by simpa using hpx]
    · rw [show buildStep full (g, st) p =
          (dgSet g s' (dgFindD g s' ++ [p.1]),
            if ((dgFindD g s').isEmpty && !omContains full s') = true then
              st ++ [s'] else st) from by
        simp [buildStep, hsrc]]
      have hset := dgConcat_count_set g s' (dgFindD g s' ++ [p.1]) x
      rw [List.count_append] at hset
      by_cases hcd : ((dgFindD g s').isEmpty && !omContains full s') = true
      · rw [if_pos hcd, ih]
        have hxs : x ≠ s' := by
          intro heq
          subst heq
          rw [Bool.and_eq_true, Bool.not_eq_true'] at hcd
          rw [hc] at hcd
          cases hcd.2
        have hcnt : (st ++ [s']).count x = st.count x := by
          have hz : List.count x [s'] = 0 := List.count_eq_zero.mpr (by
            intro hmem
            rw [List.mem_singleton] at hmem
            exact hxs hmem)
          rw [List.count_append, hz]
          omega
        rw [hcnt]
        by_cases hpx : p.1 = x
        · simp [List.count_cons, hpx] at hset ⊢
          omega
        · simp [List.count_cons, hpx,
            show (p.1 == x) = false from by simp [hpx]] at hset ⊢
          omega
      · rw [if_neg hcd, ih]
        by_cases hpx : p.1 = x
        · simp [List.count_cons, hpx] at hset ⊢
          omega
        · simp [List.count_cons, hpx,
            show (p.1 == x) = false from by simp [hpx]] at hset ⊢
          omega

/-- During the build phase an id not yet carrying a target list gains at
most one pending occurrence beyond its op-map entries (its single possible
seeding). -/
theorem build_count_le (full : OpMap) (x : Hoid) :
    ∀ (l : List (Hoid × ObjectOperation)) (g : DGraph) (st : List Hoid),
      (l.foldl (buildStep full) (g, st)).2.count x +
        (dgConcat (l.foldl (buildStep full) (g, st)).1).count x ≤
      st.count x + (dgConcat g).count x + (l.map Prod.fst).count x +
        (if dgFindD g x = [] then 1 else 0) := by
  intro l
  induction l with
  | nil =>
    intro g st
    split <;> simp
  | cons p l ih =>
    intro g st
    rw [List.foldl_cons, List.map_cons]
    rcases hsrc : p.2.has_source with _ | s'
    · rw [show buildStep full (g, st) p = (g, st ++ [p.1]) from by
        simp [buildStep, hsrc]]
      refine Nat.le_trans (ih g (st ++ [p.1])) ?_
      by_cases hpx : p.1 = x
      · simp [List.count_append, List.count_cons, hpx]
        omega
      · simp [List.count_append, List.count_cons, hpx,
          show ¬(p.1 == x) = true from by simpa using hpx]
    · rw [show buildStep full (g, st) p =
          (dgSet g s' (dgFindD g s' ++ [p.1]),
            if ((dgFindD g s').isEmpty && !omContains full s') = true then
              st ++ [s'] else st) from by
        simp [buildStep, hsrc]]
      refine Nat.le_trans (ih _ _) ?_
      have hset := dgConcat_count_set g s' (dgFindD g s' ++ [p.1]) x
      rw [List.count_append] at hset
      have hp1 : List.count x [p.1] = (if p.1 = x then 1 else 0) := by
        by_cases hpx : p.1 = x
        · simp [hpx]
        · rw [if_neg hpx]
          exact List.count_eq_zero.mpr (by
            intro hmem
            rw [List.mem_singleton] at hmem
            exact hpx hmem.symm)
      rw [hp1] at hset
      have hcc : (p.1 :: l.map Prod.fst).count x =
          (l.map Prod.fst).count x + (if p.1 = x then 1 else 0) := by
        by_cases hpx : p.1 = x
        · simp [List.count_cons, hpx]
        · simp [List.count_cons, if_neg hpx,
            show (p.1 == x) = false from by simp [hpx]]
      rw [hcc]
      have hkey : (if ((dgFindD g s').isEmpty && !omContains full s') = true
          then st ++ [s'] else st).count x +
          (if dgFindD (dgSet g s' (dgFindD g s' ++ [p.1])) x = []
            then 1 else 0) ≤
          st.count x + (if dgFindD g x = [] then 1 else 0) := by
        by_cases hxs : x = s'
        · subst hxs
          have hne : dgFindD (dgSet g x (dgFindD g x ++ [p.1])) x ≠ [] := by
            rw [dgFindD, dgFind_dgSet_self]
            simp
          rw [if_neg hne]
          by_cases hcd : ((dgFindD g x).isEmpty && !omContains full x) = true
          · have hempty : dgFindD g x = [] := by
              rw [Bool.and_eq_true, List.isEmpty_iff] at hcd
              exact hcd.1
            rw [if_pos hcd, if_pos hempty, List.count_append]
            have hone : List.count x [x] = 1 := by simp
            omega
          · rw [if_neg hcd]
            split <;> omega
        · have hg' : dgFindD (dgSet g s' (dgFindD g s' ++ [p.1])) x =
              dgFindD g x := by
            rw [dgFindD, dgFind_dgSet_ne g hxs]
            rfl
          rw [hg']
          have hstc : (if ((dgFindD g s').isEmpty && !omContains full s') =
              true then st ++ [s'] else st).count x = st.count x := by
            have hz : List.count x [s'] = 0 := List.count_eq_zero.mpr (by
              intro hmem
              rw [List.mem_singleton] at hmem
              exact hxs hmem)
            split
            · rw [List.count_append, hz]
              omega
            · rfl
          rw [hstc]
      omega

/-- Invariant of the build phase: every recorded reverse edge `key → x`
comes from an op-map entry at `x` whose init names `key` as its source. -/
theorem build_src (full : OpMap) :
    ∀ (l : List (Hoid × ObjectOperation)) (g : DGraph) (st : List Hoid),
      (∀ q ∈ l, q ∈ full) →
      (∀ p ∈ g, ∀ x ∈ p.2, ∃ op, (x, op) ∈ full ∧
        op.has_source = some p.1) →
      ∀ p ∈ (l.foldl (buildStep full) (g, st)).1, ∀ x ∈ p.2,
        ∃ op, (x, op) ∈ full ∧ op.has_source = some p.1 := by
  intro l
  induction l with
  | nil => intro g st _ hg; exact hg
  | cons p l ih =>
    intro g st hl hg
    rw [List.foldl_cons]
    rcases hsrc : p.2.has_source with _ | s'
    · rw [show buildStep full (g, st) p = (g, st ++ [p.1]) from by
        simp [buildStep, hsrc]]
      exact ih _ _ (fun q hq => hl q (List.mem_cons_of_mem _ hq)) hg
    · rw [show buildStep full (g, st) p =
          (dgSet g s' (dgFindD g s' ++ [p.1]),
            if ((dgFindD g s').isEmpty && !omContains full s') = true then
              st ++ [s'] else st) from by
        simp [buildStep, hsrc]]
      refine ih _ _ (fun q hq => hl q (List.mem_cons_of_mem _ hq)) ?_
      intro q hq x hx
      rcases mem_dgSet_or q hq with heq | hmem
      · subst heq
        rcases List.mem_append.mp hx with hx1 | hx2
        · have hne : dgFindD g s' ≠ [] := by
            intro hnil
            rw [hnil] at hx1
            cases hx1
          have hfind := dgFind_of_dgFindD_ne hne
          exact hg (s', dgFindD g s') (dgFind_mem hfind) x hx1
        · rw [List.mem_singleton] at hx2
          subst hx2
          exact ⟨p.2, by
            refine ⟨?_, hsrc⟩
            have : p ∈ full := hl p (List.mem_cons_self _ _)
            simpa using this⟩
      · exact hg q hmem x hx
/-- Invariant of the build phase: every key of the graph is the source of
some op-map entry. -/
theorem build_keys (full : OpMap) :
    ∀ (l : List (Hoid × ObjectOperation)) (g : DGraph) (st : List Hoid),
      (∀ q ∈ l, q ∈ full) →
      (∀ p ∈ g, ∃ q ∈ full, q.2.has_source = some p.1) →
      ∀ p ∈ (l.foldl (buildStep full) (g, st)).1,
        ∃ q ∈ full, q.2.has_source = some p.1 := by
  intro l
  induction l with
  | nil => intro g st _ hg; exact hg
  | cons p l ih =>
    intro g st hl hg
    rw [List.foldl_cons]
    rcases hsrc : p.2.has_source with _ | s'
    · rw [show buildStep full (g, st) p = (g, st ++ [p.1]) from by
        simp [buildStep, hsrc]]
      exact ih _ _ (fun q hq => hl q (List.mem_cons_of_mem _ hq)) hg
    · rw [show buildStep full (g, st) p =
          (dgSet g s' (dgFindD g s' ++ [p.1]),
            if ((dgFindD g s').isEmpty && !omContains full s') = true then
              st ++ [s'] else st) from by
        simp [buildStep, hsrc]]
      refine ih _ _ (fun q hq => hl q (List.mem_cons_of_mem _ hq)) ?_
      intro q hq
      rcases mem_dgSet_or q hq with heq | hmem
      · subst heq
        exact ⟨p, hl p (List.mem_cons_self _ _), hsrc⟩
      · exact hg q hmem

theorem mem_of_omLookup {m : OpMap} {h : Hoid} {op : ObjectOperation}
    (hl : omLookup m h = some op) : (h, op) ∈ m := by
  induction m with
  | nil => cases hl
  | cons p t ih =>
    obtain ⟨k, w⟩ := p
    by_cases h1 : h = k
    · subst h1
      simp only [omLookup, if_true, eq_self_iff_true, Option.some.injEq] at hl
      subst hl
      exact List.mem_cons_self _ _
    · simp only [omLookup, if_neg h1] at hl
      exact List.mem_cons_of_mem _ (ih hl)

theorem omLookup_of_mem_sorted {m : OpMap} (hs : keysSorted m = true)
    {h : Hoid} {op : ObjectOperation} (hmem : (h, op) ∈ m) :
    omLookup m h = some op := by
  induction m with
  | nil => cases hmem
  | cons p t ih =>
    obtain ⟨k, w⟩ := p
    rcases List.mem_cons.mp hmem with heq | hmem'
    · injection heq with h1 h2
      subst h1
      subst h2
      simp [omLookup]
    · have hne : h ≠ k := by
        intro heq
        subst heq
        have := (List.pairwise_cons.mp (keysSorted_pairwise hs)).1 (h, op) hmem'
        exact hoidLT_ne this rfl
      simp only [omLookup, if_neg hne]
      exact ih (keysSorted_tail hs) hmem'

theorem omLookup_isSome_of_mem_keys {m : OpMap} {x : Hoid}
    (hx : x ∈ m.map Prod.fst) : (omLookup m x).isSome = true := by
  induction m with
  | nil => cases hx
  | cons p t ih =>
    obtain ⟨k, w⟩ := p
    by_cases h1 : x = k
    · simp [omLookup, h1]
    · rw [List.map_cons, List.mem_cons] at hx
      rcases hx with heq | hmem
      · exact absurd heq h1
      · simp only [omLookup, if_neg h1]
        exact ih hmem

theorem keys_nodup_of_sorted {m : OpMap} (hs : keysSorted m = true) :
    (m.map Prod.fst).Nodup :=
  (keysSorted_pairwise hs).map Prod.fst (fun _ _ hab => hoidLT_ne hab)

def c1A : Hoid := ⟨10, false⟩

def c1B : Hoid := ⟨11, false⟩

def c1C : Hoid := ⟨12, false⟩

def c1Z : Hoid := ⟨13, false⟩

def c1T : PGTransaction :=
  ⟨[(c1B, { init_type := .Clone c1A }), (c1C, { init_type := .Clone c1B }),
    (c1Z, { init_type := .Create })]⟩

def c1Rank (h : Hoid) : Nat := 100 - h.oid

/-- C1: on a well-formed op map whose clone/rename source→target graph is
acyclic (witnessed by a rank function decreasing from sources to targets,
the caller obligation P5), `safe_create_traverse` (i) passes the visitor
only genuine `(hoid, op)` entries of the op map — a source absent from the
op map orders the traversal but is never visited — (ii) visits every entry
of the op map exactly once, and (iii) whenever an op's init carries a
source that is itself in the op map, the target is visited strictly before
the source. -/
theorem C1_safe_create_traverse (t : PGTransaction)
    (hs : keysSorted t.op_map = true) (rank : Hoid → Nat)
    (hacyc : ∀ p ∈ t.op_map, ∀ s : Hoid, p.2.has_source = some s →
      rank p.1 < rank s) :
    (∀ p ∈ t.safe_create_traverse, omLookup t.op_map p.1 = some p.2) ∧
    (∀ n : Hoid, omContains t.op_map n = true →
      (t.safe_create_traverse.map Prod.fst).count n = 1) ∧
    (∀ h op s, omLookup t.op_map h = some op → op.has_source = some s →
      omContains t.op_map s = true →
      ∀ o1 p o2, t.safe_create_traverse = o1 ++ p :: o2 → p.1 = s →
        h ∈ o1.map Prod.fst) := by
  have hJ2 : trJ2 rank (buildPhase t.op_map).1 := by
    intro p hp x hx
    obtain ⟨op, hopmem, hopsrc⟩ := build_src t.op_map t.op_map [] []
      (fun q hq => hq) (fun q hq => absurd hq (List.not_mem_nil q)) p hp x hx
    exact hacyc (x, op) hopmem p.1 hopsrc
  have hJ1 : trJ1 (buildPhase t.op_map).2 (buildPhase t.op_map).1 := by
    intro p hp
    have hpkey := build_keys t.op_map t.op_map [] [] (fun q hq => hq)
      (fun q hq => absurd hq (List.not_mem_nil q)) p hp
    by_cases hc : omContains t.op_map p.1 = true
    · rw [omContains] at hc
      rcases hlk : omLookup t.op_map p.1 with _ | opk
      · rw [hlk] at hc
        cases hc
      · rcases hslk : opk.has_source with _ | s2
        · exact Or.inl (build_root t.op_map t.op_map [] [] (p.1, opk)
            (mem_of_omLookup hlk) hslk)
        · right
          have hlist := build_list t.op_map t.op_map [] [] s2
          have hmem : p.1 ∈ dgFindD (buildPhase t.op_map).1 s2 := by
            rw [show (buildPhase t.op_map).1 =
              (t.op_map.foldl (buildStep t.op_map) ([], [])).1 from rfl, hlist]
            refine List.mem_append.mpr (Or.inr ?_)
            refine List.mem_map.mpr ⟨(p.1, opk), ?_, rfl⟩
            refine List.mem_filter.mpr ⟨mem_of_omLookup hlk, ?_⟩
            simp [hslk]
          have hne : dgFindD (buildPhase t.op_map).1 s2 ≠ [] := by
            intro hnil
            rw [hnil] at hmem
            cases hmem
          have hfind := dgFind_of_dgFindD_ne hne
          exact ⟨(s2, dgFindD (buildPhase t.op_map).1 s2), dgFind_mem hfind,
            hmem⟩
    · refine Or.inl (build_seed t.op_map t.op_map [] [] p.1 ?_ hpkey rfl)
      rw [Bool.not_eq_true] at hc
      exact hc
  have hD : trD (buildPhase t.op_map).2 (buildPhase t.op_map).1 := by
    intro x
    have h0 : (dgConcat ([] : DGraph)).count x = 0 := by
      simp [dgConcat]
    show (t.op_map.foldl (buildStep t.op_map) ([], [])).2.count x +
      (dgConcat (t.op_map.foldl (buildStep t.op_map) ([], [])).1).count x ≤ 1
    by_cases hc : omContains t.op_map x = true
    · have heq := build_count_contained t.op_map hc t.op_map [] []
      have hle : (t.op_map.map Prod.fst).count x ≤ 1 :=
        List.nodup_iff_count_le_one.mp (keys_nodup_of_sorted hs) x
      rw [List.count_nil, h0] at heq
      omega
    · have hle := build_count_le t.op_map x t.op_map [] []
      have hk0 : (t.op_map.map Prod.fst).count x = 0 := by
        refine List.count_eq_zero.mpr ?_
        intro hmem
        exact hc (omLookup_isSome_of_mem_keys hmem)
      have hseed : (if dgFindD ([] : DGraph) x = [] then 1 else 0) = 1 := by
        simp [dgFindD, dgFind]
      rw [List.count_nil, h0, hk0, hseed] at hle
      omega
  refine ⟨?_, ?_, ?_⟩
  · intro p hp
    exact run_mem t.op_map (buildPhase t.op_map).2 (buildPhase t.op_map).1 p hp
  · intro n hn
    have hcnt := run_count t.op_map rank (buildPhase t.op_map).2
      (buildPhase t.op_map).1 hJ1 hJ2 n
    have heq := build_count_contained t.op_map hn t.op_map [] []
    have hkmem : n ∈ t.op_map.map Prod.fst := by
      rw [omContains] at hn
      rcases hlk : omLookup t.op_map n with _ | opk
      · rw [hlk] at hn
        cases hn
      · exact List.mem_map.mpr ⟨(n, opk), mem_of_omLookup hlk, rfl⟩
    have hle : (t.op_map.map Prod.fst).count n ≤ 1 :=
      List.nodup_iff_count_le_one.mp (keys_nodup_of_sorted hs) n
    have hpos : 0 < (t.op_map.map Prod.fst).count n :=
      List.count_pos_iff.mpr hkmem
    have h0 : (dgConcat ([] : DGraph)).count n = 0 := by
      simp [dgConcat]
    rw [List.count_nil, h0] at heq
    rw [PGTransaction.safe_create_traverse, hcnt, if_pos hn]
    show (t.op_map.foldl (buildStep t.op_map) ([], [])).2.count n +
      (dgConcat (t.op_map.foldl (buildStep t.op_map) ([], [])).1).count n = 1
    omega
  · intro h op s hlook hsrc _ o1 p o2 hsplit hps
    have hconth : omContains t.op_map h = true := by
      rw [omContains, hlook]
      rfl
    have hlist := build_list t.op_map t.op_map [] [] s
    have hmem : h ∈ dgFindD (buildPhase t.op_map).1 s := by
      rw [show (buildPhase t.op_map).1 =
        (t.op_map.foldl (buildStep t.op_map) ([], [])).1 from rfl, hlist]
      refine List.mem_append.mpr (Or.inr ?_)
      refine List.mem_map.mpr ⟨(h, op), ?_, rfl⟩
      refine List.mem_filter.mpr ⟨mem_of_omLookup hlook, ?_⟩
      simp [hsrc]
    have hne : dgFindD (buildPhase t.op_map).1 s ≠ [] := by
      intro hnil
      rw [hnil] at hmem
      cases hmem
    refine run_before t.op_map hconth (buildPhase t.op_map).2
      (buildPhase t.op_map).1 hD
      (Or.inl ⟨dgFindD (buildPhase t.op_map).1 s, dgFind_of_dgFindD_ne hne,
        hmem⟩) o1 p o2 hsplit hps

theorem C1_safe_create_traverse_witness :
    (keysSorted c1T.op_map = true ∧
      (∀ p ∈ c1T.op_map, ∀ s : Hoid, p.2.has_source = some s →
        c1Rank p.1 < c1Rank s)) ∧
    ((∀ p ∈ c1T.safe_create_traverse, omLookup c1T.op_map p.1 = some p.2) ∧
      (∀ n : Hoid, omContains c1T.op_map n = true →
        (c1T.safe_create_traverse.map Prod.fst).count n = 1) ∧
      (∀ h op s, omLookup c1T.op_map h = some op → op.has_source = some s →
        omContains c1T.op_map s = true →
        ∀ o1 p o2, c1T.safe_create_traverse = o1 ++ p :: o2 → p.1 = s →
          h ∈ o1.map Prod.fst)) := by
  have hac : ∀ p ∈ c1T.op_map, ∀ s : Hoid, p.2.has_source = some s →
      c1Rank p.1 < c1Rank s := by
    intro p hp s hsrc
    have hp' : p ∈ [(c1B, ({ init_type := .Clone c1A } : ObjectOperation)),
        (c1C, { init_type := .Clone c1B }),
        (c1Z, { init_type := .Create })] := hp
    fin_cases hp' <;>
      simp only [ObjectOperation.has_source, Option.some.injEq,
        reduceCtorEq] at hsrc
    · rw [← hsrc]
      decide
    · rw [← hsrc]
      decide
  exact ⟨⟨by decide, hac⟩, C1_safe_create_traverse c1T (by decide) c1Rank hac⟩

end Ceph
